import Mathlib

/-!
Verification development for the Pokedex-Pipeline repository (raw → bronze →
silver batch ETL over an object store).

The Python sources are shallowly embedded:

* `src/utils.py`   — hashing (`sha256_bytes`), column normalization
  (`to_snake_cols` via the `slugify` library), CSV delimiter sniffing
  (`detect_csv_delimiter`), S3 put helpers (`s3_put_parquet`).
* `src/bronze_job.py` — `process_csv_bytes` and `bronze_from_s3_raw`.
* `src/silver_job.py` — `load_bronze_df`, `clean_and_type` (business-key
  dedup, typo rename), `write_silver_main`, `write_silver_ability_bridge`,
  `run`.

Conventions: byte strings are `List Nat` (each entry a byte value), machine
words are `Nat` reduced modulo `2 ^ 32` where the Python code relies on
32-bit arithmetic (inside SHA-256), frames are typed row lists, and Python
exceptions are `Except` errors.  External collaborators (the object store,
pandas, the `zipfile` container format, the csv `Sniffer` heuristic and the
`slugify` transliteration tables) are modelled at their interface, as
documented on each definition.
-/

/-! ## SHA-256 (hashlib.sha256, used by `utils.sha256_bytes`)

A direct transcription of FIPS 180-4: padding, 64-word message schedule,
64 compression rounds.  Words are `Nat` values kept below `2 ^ 32` by
explicit reduction, digest bytes are produced with explicit `% 256`.
-/

/-- Right rotation of a 32-bit word (input expected below `2 ^ 32`). -/
def rotr32 (x n : Nat) : Nat := (x % 2 ^ n) * 2 ^ (32 - n) + x / 2 ^ n

/-- The eight working variables / hash state of SHA-256. -/
structure Hash8 where
  a : Nat
  b : Nat
  c : Nat
  d : Nat
  e : Nat
  f : Nat
  g : Nat
  h : Nat
deriving Repr, DecidableEq

/-- SHA-256 initial hash value. -/
def shaH0 : Hash8 :=
  ⟨1779033703, 3144134277, 1013904242, 2773480762,
   1359893119, 2600822924, 528734635, 1541459225⟩

/-- The 64 SHA-256 round constants. -/
def shaK : List Nat :=
  [1116352408, 1899447441, 3049323471, 3921009573, 961987163, 1508970993,
   2453635748, 2870763221, 3624381080, 310598401, 607225278, 1426881987,
   1925078388, 2162078206, 2614888103, 3248222580, 3835390401, 4022224774,
   264347078, 604807628, 770255983, 1249150122, 1555081692, 1996064986,
   2554220882, 2821834349, 2952996808, 3210313671, 3336571891, 3584528711,
   113926993, 338241895, 666307205, 773529912, 1294757372, 1396182291,
   1695183700, 1986661051, 2177026350, 2456956037, 2730485921, 2820302411,
   3259730800, 3345764771, 3516065817, 3600352804, 4094571909, 275423344,
   430227734, 506948616, 659060556, 883997877, 958139571, 1322822218,
   1537002063, 1747873779, 1955562222, 2024104815, 2227730452, 2361852424,
   2428436474, 2756734187, 3204031479, 3329325298]

/-- One SHA-256 compression round. -/
def shaRound (st : Hash8) (k w : Nat) : Hash8 :=
  let s1 := rotr32 st.e 6 ^^^ rotr32 st.e 11 ^^^ rotr32 st.e 25
  let ch := (st.e &&& st.f) ^^^ ((st.e ^^^ 0xffffffff) &&& st.g)
  let t1 := (st.h + s1 + ch + k + w) % 2 ^ 32
  let s0 := rotr32 st.a 2 ^^^ rotr32 st.a 13 ^^^ rotr32 st.a 22
  let mj := (st.a &&& st.b) ^^^ (st.a &&& st.c) ^^^ (st.b &&& st.c)
  let t2 := (s0 + mj) % 2 ^ 32
  ⟨(t1 + t2) % 2 ^ 32, st.a, st.b, st.c, (st.d + t1) % 2 ^ 32, st.e, st.f, st.g⟩

/-- Big-endian packing of a 64-byte block into its first 16 schedule words. -/
def toWords : List Nat → List Nat
  | b1 :: b2 :: b3 :: b4 :: rest =>
      (b1 * 2 ^ 24 + b2 * 2 ^ 16 + b3 * 2 ^ 8 + b4) :: toWords rest
  | _ => []

/-- Extension of the message schedule from 16 to 64 words (48 steps). -/
def extendW : Nat → List Nat → List Nat
  | 0, acc => acc
  | n + 1, acc =>
      let i := acc.length
      let w15 := acc.getD (i - 15) 0
      let w2 := acc.getD (i - 2) 0
      let s0 := rotr32 w15 7 ^^^ rotr32 w15 18 ^^^ w15 / 2 ^ 3
      let s1 := rotr32 w2 17 ^^^ rotr32 w2 19 ^^^ w2 / 2 ^ 10
      extendW n (acc ++ [(acc.getD (i - 16) 0 + s0 + acc.getD (i - 7) 0 + s1) % 2 ^ 32])

/-- Processing of one 64-byte block: 64 rounds, then feed-forward addition. -/
def compressBlock (h0 : Hash8) (block : List Nat) : Hash8 :=
  let ws := extendW 48 (toWords block)
  let st := (List.zip shaK ws).foldl (fun st kw => shaRound st kw.1 kw.2) h0
  ⟨(h0.a + st.a) % 2 ^ 32, (h0.b + st.b) % 2 ^ 32, (h0.c + st.c) % 2 ^ 32,
   (h0.d + st.d) % 2 ^ 32, (h0.e + st.e) % 2 ^ 32, (h0.f + st.f) % 2 ^ 32,
   (h0.g + st.g) % 2 ^ 32, (h0.h + st.h) % 2 ^ 32⟩

/-- Big-endian 8-byte encoding of the message bit length. -/
def lenBytes8 (n : Nat) : List Nat :=
  [n / 2 ^ 56 % 256, n / 2 ^ 48 % 256, n / 2 ^ 40 % 256, n / 2 ^ 32 % 256,
   n / 2 ^ 24 % 256, n / 2 ^ 16 % 256, n / 2 ^ 8 % 256, n % 256]

/-- SHA-256 padding: `0x80`, zeros to 56 mod 64, then the 64-bit bit length. -/
def padMessage (msg : List Nat) : List Nat :=
  let L := msg.length
  msg ++ 128 :: List.replicate ((119 - L % 64) % 64) 0 ++ lenBytes8 (8 * L)

/-- Worker for `chunks64`; the fuel bounds the number of blocks (each step
consumes at least one byte). -/
def chunks64Aux : Nat → List Nat → List (List Nat)
  | 0, _ => []
  | _, [] => []
  | fuel + 1, l => l.take 64 :: chunks64Aux fuel (l.drop 64)

/-- Splitting of a byte list into 64-byte blocks. -/
def chunks64 (l : List Nat) : List (List Nat) := chunks64Aux l.length l

/-- Final hash state for a byte message. -/
def sha256_state (msg : List Nat) : Hash8 :=
  (chunks64 (padMessage msg)).foldl compressBlock shaH0

/-- Big-endian byte decomposition of a 32-bit word; every entry is an
explicit `% 256` remainder. -/
def wordBytes (w : Nat) : List Nat :=
  [w / 2 ^ 24 % 256, w / 2 ^ 16 % 256, w / 2 ^ 8 % 256, w % 256]

/-- The 32-byte SHA-256 digest of a byte message. -/
def sha256_digest (msg : List Nat) : List Nat :=
  let s := sha256_state msg
  [s.a, s.b, s.c, s.d, s.e, s.f, s.g, s.h].flatMap wordBytes

/-- The sixteen lowercase hex digits. -/
def hexChars : List Char := "0123456789abcdef".data

/-- Hex digit for a nibble value. -/
def hexChar (n : Nat) : Char := hexChars.getD n '0'

/-- Embedding of `utils.sha256_bytes`: the lowercase hex digest (as
`hashlib.sha256(data).hexdigest()`) of a byte payload. -/
def sha256_bytes (data : List Nat) : String :=
  String.mk ((sha256_digest data).flatMap (fun b => [hexChar (b / 16), hexChar (b % 16)]))

/-- First 12 hex characters of the content fingerprint, as used in the bronze
output filename (`file_hash[:12]` in `process_csv_bytes`, a character
slice). -/
def fp12 (data : List Nat) : String := String.mk ((sha256_bytes data).data.take 12)

/-- The digest nibbles behind `fp12`, kept as numbers; used to count the
possible values of the truncated fingerprint. -/
def fp12_nibbles (data : List Nat) : List Nat :=
  ((sha256_digest data).flatMap (fun b => [b / 16, b % 16])).take 12

/-! ## CSV delimiter detection (`utils.detect_csv_delimiter`)

`detect_csv_delimiter` decodes the sample as UTF-8 with `errors="ignore"`,
passes the first 4096 characters to `csv.Sniffer().sniff` with candidate
delimiters `[",", ";", "\t", "|"]`, and maps any exception to `None`.
The UTF-8 decoder is transcribed below; the `Sniffer` heuristic is a
standard-library collaborator and is modelled in simplified form
(`sniff_model`): a candidate is chosen when its per-line occurrence count
over the first ten non-empty lines is positive and uniform, candidates
being tried in the library's preference order.  The claim-relevant contract
is shared with the library by construction: a successful sniff returns one
of the configured candidates, and failure is a value (`none`), not an
exception. -/

/-- Test for a UTF-8 continuation byte. -/
def isCont (b : Nat) : Bool := 128 ≤ b && b ≤ 191

/-- Valid ranges of the second byte of a 3-byte UTF-8 sequence (excluding
overlong forms and surrogates, as CPython's decoder does). -/
def cont3ok (b1 b2 : Nat) : Bool :=
  if b1 = 0xe0 then 0xa0 ≤ b2 && b2 ≤ 0xbf
  else if b1 = 0xed then 0x80 ≤ b2 && b2 ≤ 0x9f
  else isCont b2

/-- Valid ranges of the second byte of a 4-byte UTF-8 sequence. -/
def cont4ok (b1 b2 : Nat) : Bool :=
  if b1 = 0xf0 then 0x90 ≤ b2 && b2 ≤ 0xbf
  else if b1 = 0xf4 then 0x80 ≤ b2 && b2 ≤ 0x8f
  else isCont b2

/-- Worker for `utf8DecodeIgnore`; the fuel bounds the number of decoding
steps (each step consumes at least one byte, so the byte count suffices). -/
def utf8Aux : Nat → List Nat → List Char
  | 0, _ => []
  | _, [] => []
  | fuel + 1, b1 :: t1 =>
    if b1 < 0x80 then Char.ofNat b1 :: utf8Aux fuel t1
    else if 0xc2 ≤ b1 && b1 ≤ 0xdf then
      match t1 with
      | b2 :: t2 =>
          if isCont b2 then
            Char.ofNat ((b1 - 0xc0) * 2 ^ 6 + (b2 - 0x80)) :: utf8Aux fuel t2
          else utf8Aux fuel t1
      | [] => []
    else if 0xe0 ≤ b1 && b1 ≤ 0xef then
      match t1 with
      | b2 :: b3 :: t3 =>
          if cont3ok b1 b2 && isCont b3 then
            Char.ofNat ((b1 - 0xe0) * 2 ^ 12 + (b2 - 0x80) * 2 ^ 6 + (b3 - 0x80)) ::
              utf8Aux fuel t3
          else utf8Aux fuel t1
      | _ => utf8Aux fuel t1
    else if 0xf0 ≤ b1 && b1 ≤ 0xf4 then
      match t1 with
      | b2 :: b3 :: b4 :: t4 =>
          if cont4ok b1 b2 && isCont b3 && isCont b4 then
            Char.ofNat ((b1 - 0xf0) * 2 ^ 18 + (b2 - 0x80) * 2 ^ 12 +
                        (b3 - 0x80) * 2 ^ 6 + (b4 - 0x80)) :: utf8Aux fuel t4
          else utf8Aux fuel t1
      | _ => utf8Aux fuel t1
    else utf8Aux fuel t1

/-- UTF-8 decoding with invalid bytes dropped, modelling
`bytes.decode("utf-8", errors="ignore")`. -/
def utf8DecodeIgnore (bs : List Nat) : List Char := utf8Aux bs.length bs

/-- Split on newline characters (Python `text.split("\n")`). -/
def splitNl : List Char → List (List Char)
  | [] => [[]]
  | c :: rest =>
      match splitNl rest with
      | [] => [[]]
      | l :: ls => if c = '\n' then [] :: l :: ls else (c :: l) :: ls

/-- Simplified model of `csv.Sniffer().sniff(text, delimiters=[",", ";",
"\t", "|"])`: the first candidate (library preference order) whose count is
positive and identical on each of the first ten non-empty lines; `none`
models the `csv.Error` the library raises when no candidate fits. -/
def sniff_model (text : List Char) : Option Char :=
  let lines := (splitNl text).filter (fun l => !l.isEmpty)
  let sample := lines.take 10
  if sample.isEmpty then none
  else
    [',', '\t', ';', '|'].find? (fun c =>
      match sample.map (fun l => l.count c) with
      | [] => false
      | c0 :: rest => decide (1 ≤ c0) && rest.all (fun k => k == c0))

/-- Embedding of `utils.detect_csv_delimiter`: decode the byte sample
(UTF-8, ignoring errors), sniff the first 4096 characters, and map any
sniffing failure to `none` (the `try`/`except` wrapper). -/
def detect_csv_delimiter (sample : List Nat) : Option Char :=
  sniff_model ((utf8DecodeIgnore sample).take 4096)

/-! ## Bronze job (`bronze_job.py`) -/

/-- Python `s.lower()` (ASCII case folding; the keys and entry names the
jobs compare are ASCII). -/
def pyLower (s : String) : String := String.mk (s.data.map Char.toLower)

/-- Python `s.endswith(suffix)`. -/
def pyEndsWith (s suffix : String) : Bool := List.isSuffixOf suffix.data s.data

/-- Split of a character list at every occurrence of a separator character
(Python `s.split(sep)` for a one-character separator). -/
def splitChar (sep : Char) : List Char → List (List Char)
  | [] => [[]]
  | c :: rest =>
      match splitChar sep rest with
      | [] => [[]]
      | l :: ls => if c = sep then [] :: l :: ls else (c :: l) :: ls

/-- Configuration and run identity of the bronze job: bucket/prefix of the
bronze layer, run id, batch id, UTC ingestion date and the optional explicit
CSV delimiter (`CSV_DELIM`).  `CSV_ENCODING` only feeds `pandas.read_csv`,
whose parsing is opaque here. -/
structure BronzeEnv where
  dlBucket : String
  bronzeDir : String
  runId : String
  batchId : String
  ingestionDate : String
  csvDelim : Option Char

/-- Delimiter effectively used by `process_csv_bytes` for one payload: the
configured `CSV_DELIM` when set, otherwise the sniffed delimiter of the
first 4096 bytes, otherwise the `pandas.read_csv` default comma. -/
def chosen_sep (csvDelim : Option Char) (csv_bytes : List Nat) : Char :=
  match csvDelim with
  | some d => d
  | none =>
      match detect_csv_delimiter (csv_bytes.take 4096) with
      | some s => s
      | none => ','

/-- One bronze Parquet object as written by `process_csv_bytes`: the S3
destination plus the technical/provenance column values attached to the
frame (`_source_file`, `_source_sha256`, `_run_id`, `_batch_id`) and the
delimiter the payload was decoded with.  The parsed tabular content itself
is carried as the raw payload (pandas parsing is opaque to the claims). -/
structure BronzePut where
  bucket : String
  key : String
  source_file : String
  source_sha256 : String
  run_id : String
  batch_id : String
  sep : Char
  payload : List Nat
deriving Repr, DecidableEq

/-- Embedding of `bronze_job.process_csv_bytes` (lines 61-102): resolve the
delimiter, fingerprint the raw pre-decode bytes, and emit one Parquet object
under
`<bronze_prefix>/ingestion_date=<date>/batch_id=<batch>/pokemon__<fp12>.parquet`. -/
def process_csv_bytes (env : BronzeEnv) (csv_bytes : List Nat) (source_name : String) :
    BronzePut :=
  let sep := chosen_sep env.csvDelim csv_bytes
  let file_hash := sha256_bytes csv_bytes
  { bucket := env.dlBucket
    key := env.bronzeDir ++ "/ingestion_date=" ++ env.ingestionDate ++
      "/batch_id=" ++ env.batchId ++ "/pokemon__" ++
      String.mk (file_hash.data.take 12) ++ ".parquet"
    source_file := source_name
    source_sha256 := file_hash
    run_id := env.runId
    batch_id := env.batchId
    sep := sep
    payload := csv_bytes }

/-- One entry of a ZIP archive (name and uncompressed bytes). -/
structure ZipEntry where
  filename : String
  data : List Nat
deriving Repr, DecidableEq

/-- Payload of a raw object.  The ZIP container format is abstracted: an
object that `zipfile.ZipFile` opens successfully is carried as its entry
list, any other payload as plain bytes. -/
inductive ObjectBody where
  | plain (bytes : List Nat)
  | archive (entries : List ZipEntry)
deriving Repr, DecidableEq

/-- One listed S3 object under the raw prefix. -/
structure RawObject where
  key : String
  size : Nat
  body : ObjectBody
deriving Repr, DecidableEq

/-- Byte view of an object body (serialization of archives abstracted as the
concatenation of their entries). -/
def bodyBytes : ObjectBody → List Nat
  | ObjectBody.plain b => b
  | ObjectBody.archive es => es.flatMap (fun e => e.data)

/-- Python exceptions raised by the embedded code paths. -/
inductive PyErr where
  | noObjectsFound
  | badZipFile
  | noDataBronze
  | notADataFrame
  | notAString
deriving Repr, DecidableEq

/-- Embedding of the ZIP branch of `bronze_from_s3_raw` (lines 122-127): one
`process_csv_bytes` call per entry whose name does not end in `/` and whose
lowercased name ends in `.csv`, with the in-archive entry name as
`source_name`. -/
def zip_csv_outputs (env : BronzeEnv) : List ZipEntry → List BronzePut
  | [] => []
  | e :: rest =>
      if pyEndsWith e.filename "/" || !(pyEndsWith (pyLower e.filename) ".csv") then
        zip_csv_outputs env rest
      else
        process_csv_bytes env e.data e.filename :: zip_csv_outputs env rest

/-- Python `key.split("/")[-1]`. -/
def lastComponent (key : String) : String :=
  String.mk (((splitChar '/' key.data).getLast?).getD key.data)

/-- The object loop of `bronze_from_s3_raw` (lines 111-130): `.csv` keys are
processed whole, `.zip` keys are fanned out over their CSV entries (a key
ending in `.zip` whose payload is not an archive raises `BadZipFile`), and
any other key is skipped with a diagnostic. -/
def bronzeLoop (env : BronzeEnv) : List RawObject → Except PyErr (List BronzePut)
  | [] => Except.ok []
  | o :: rest =>
      if pyEndsWith (pyLower o.key) ".csv" then
        match bronzeLoop env rest with
        | Except.error e => Except.error e
        | Except.ok tl =>
            Except.ok (process_csv_bytes env (bodyBytes o.body) (lastComponent o.key) :: tl)
      else if pyEndsWith (pyLower o.key) ".zip" then
        match o.body with
        | ObjectBody.archive entries =>
            match bronzeLoop env rest with
            | Except.error e => Except.error e
            | Except.ok tl => Except.ok (zip_csv_outputs env entries ++ tl)
        | ObjectBody.plain _ => Except.error PyErr.badZipFile
      else bronzeLoop env rest

/-- Embedding of `bronze_job.bronze_from_s3_raw` (lines 104-136) up to the
optional catalog-registration step: list the raw prefix (`s3_iter_objects`
skips zero-size keys), process every object, and raise `FileNotFoundError`
when the filtered listing was empty (`any_found` stayed false). -/
def bronze_from_s3_raw (env : BronzeEnv) (listing : List RawObject) :
    Except PyErr (List BronzePut) :=
  let objs := listing.filter (fun o => o.size != 0)
  match bronzeLoop env objs with
  | Except.error e => Except.error e
  | Except.ok puts => if objs.isEmpty then Except.error PyErr.noObjectsFound else Except.ok puts

/-! ## Column-name normalization (`utils.to_snake_cols` via `slugify`)

`to_snake_cols` maps `slugify(str(c), separator="_")` over the column names.
The `slugify` function (python-slugify, default arguments) is transcribed
step by step: quote runs to dashes, `unidecode` transliteration, HTML
character-entity / decimal / hexadecimal reference decoding, NFKD
normalization followed by ascii-ignore encoding, lowercasing, quote
deletion, in-number comma removal, replacement of `[^-a-z0-9]+` runs by a
dash, duplicate-dash collapse, dash strip, and separator substitution.
The `unidecode`, entity-name and NFKD tables are finite excerpts of the
library tables (unknown non-ASCII characters transliterate to the empty
string, as in `unidecode`); the properties proved about `slugify` depend
only on its behaviour on the ASCII output alphabet, not on table
contents. -/

/-- The apostrophe character (python-slugify `QUOTE_PATTERN`). -/
def quoteChar : Char := Char.ofNat 39

/-- Lowercase ASCII letter or digit. -/
def azdigit (c : Char) : Bool :=
  (97 ≤ c.toNat && c.toNat ≤ 122) || (48 ≤ c.toNat && c.toNat ≤ 57)

/-- Characters kept by `ALLOWED_CHARS_PATTERN` (`[^-a-z0-9]+`). -/
def allowedChar (c : Char) : Bool := c == '-' || azdigit c

/-- Replacement of every maximal run of apostrophes by one dash
(`QUOTE_PATTERN.sub('-', text)`). -/
def quoteSubDash (prevQ : Bool) : List Char → List Char
  | [] => []
  | c :: rest =>
      if c = quoteChar then
        if prevQ then quoteSubDash true rest else '-' :: quoteSubDash true rest
      else c :: quoteSubDash false rest

/-- Transliteration table excerpt for `unidecode.unidecode`: ASCII is the
identity, listed characters map to their ASCII counterparts, any other
character maps to the empty string (the `unidecode` default for unmapped
codepoints). -/
def unidecodeChar (c : Char) : List Char :=
  if c.toNat < 128 then [c]
  else if c = 'á' || c = 'à' || c = 'â' || c = 'ã' || c = 'ä' then ['a']
  else if c = 'Á' || c = 'À' || c = 'Â' || c = 'Ã' || c = 'Ä' then ['A']
  else if c = 'é' || c = 'è' || c = 'ê' || c = 'ë' then ['e']
  else if c = 'É' || c = 'È' || c = 'Ê' || c = 'Ë' then ['E']
  else if c = 'í' || c = 'ì' || c = 'î' || c = 'ï' then ['i']
  else if c = 'ó' || c = 'ò' || c = 'ô' || c = 'õ' || c = 'ö' then ['o']
  else if c = 'ú' || c = 'ù' || c = 'û' || c = 'ü' then ['u']
  else if c = 'ç' then ['c']
  else if c = 'Ç' then ['C']
  else if c = 'ñ' then ['n']
  else if c = '’' || c = '‘' then [quoteChar]
  else []

/-- Pointwise `unidecode` over a character list. -/
def unidecodeStr (l : List Char) : List Char := l.flatMap unidecodeChar

/-- Excerpt of the `html.entities.name2codepoint` table used by
`CHAR_ENTITY_PATTERN`. -/
def entityTable : List (String × Nat) :=
  [("amp", 38), ("lt", 60), ("gt", 62), ("quot", 34), ("nbsp", 160),
   ("eacute", 233), ("copy", 169), ("deg", 176)]

/-- Python `chr(n)`: a character for every codepoint up to `0x10FFFF`
(lone surrogates are represented by the replacement character, which like a
surrogate is non-ASCII and is dropped by the later ascii-ignore step), and
a `ValueError` — `none` — beyond. -/
def charOfCodepoint (n : Nat) : Option Char :=
  if n < 0xd800 then some (Char.ofNat n)
  else if n < 0xe000 then some (Char.ofNat 0xfffd)
  else if n ≤ 0x10ffff then some (Char.ofNat n)
  else none

/-- Value of a decimal digit string. -/
def digitsToNat (ds : List Char) : Nat := ds.foldl (fun a c => a * 10 + (c.toNat - 48)) 0

/-- Hexadecimal digit test (`[\da-fA-F]`). -/
def isHexDigitCh (c : Char) : Bool :=
  c.isDigit || (97 ≤ c.toNat && c.toNat ≤ 102) || (65 ≤ c.toNat && c.toNat ≤ 70)

/-- Value of one hexadecimal digit. -/
def hexVal (c : Char) : Nat :=
  if c.isDigit then c.toNat - 48
  else if 97 ≤ c.toNat then c.toNat - 87
  else c.toNat - 55

/-- Matcher for `CHAR_ENTITY_PATTERN` (`&(name);`) at a position just past
the ampersand: the named codepoint and the remainder. -/
def entityMatch (rest : List Char) : Option (Nat × List Char) :=
  entityTable.findSome? (fun p =>
    if List.isPrefixOf (p.1.data ++ [';']) rest then some (p.2, rest.drop (p.1.length + 1))
    else none)

/-- Matcher for `DECIMAL_PATTERN` (`&#(\d+);`). -/
def decMatch (rest : List Char) : Option (Nat × List Char) :=
  match rest with
  | '#' :: r2 =>
      let ds := r2.takeWhile Char.isDigit
      if ds.isEmpty then none
      else
        match r2.drop ds.length with
        | ';' :: r3 => some (digitsToNat ds, r3)
        | _ => none
  | _ => none

/-- Matcher for `HEX_PATTERN` (`&#x([\da-fA-F]+);`). -/
def hexMatch (rest : List Char) : Option (Nat × List Char) :=
  match rest with
  | '#' :: 'x' :: r2 =>
      let ds := r2.takeWhile isHexDigitCh
      if ds.isEmpty then none
      else
        match r2.drop ds.length with
        | ';' :: r3 => some (ds.foldl (fun a c => a * 16 + hexVal c) 0, r3)
        | _ => none
  | _ => none

/-- One left-to-right substitution pass for an ampersand-anchored reference
pattern; `none` models `chr` raising on an out-of-range codepoint, which
aborts the whole pass. -/
def refSub (matchFn : List Char → Option (Nat × List Char)) :
    Nat → List Char → Option (List Char)
  | 0, l => some l
  | _, [] => some []
  | fuel + 1, c :: rest =>
      if c = '&' then
        match matchFn rest with
        | some (n, rest2) =>
            match charOfCodepoint n with
            | some ch => (refSub matchFn fuel rest2).map (fun t => ch :: t)
            | none => none
        | none => (refSub matchFn fuel rest).map (fun t => '&' :: t)
      else (refSub matchFn fuel rest).map (fun t => c :: t)

/-- A reference-substitution pass with the `try`/`except Exception: pass`
wrapper of the decimal and hexadecimal passes: a raising pass leaves the
text unchanged. -/
def refPass (matchFn : List Char → Option (Nat × List Char)) (l : List Char) : List Char :=
  (refSub matchFn (l.length + 1) l).getD l

/-- Excerpt of NFKD decomposition (`unicodedata.normalize('NFKD', text)`):
ASCII is the identity, listed precomposed characters split into base letter
plus combining mark, anything else is left alone. -/
def nfkdChar (c : Char) : List Char :=
  if c.toNat < 128 then [c]
  else if c = 'á' then ['a', Char.ofNat 0x301]
  else if c = 'à' then ['a', Char.ofNat 0x300]
  else if c = 'é' then ['e', Char.ofNat 0x301]
  else if c = 'è' then ['e', Char.ofNat 0x300]
  else if c = 'í' then ['i', Char.ofNat 0x301]
  else if c = 'ó' then ['o', Char.ofNat 0x301]
  else if c = 'ú' then ['u', Char.ofNat 0x301]
  else if c = 'ç' then ['c', Char.ofNat 0x327]
  else if c = 'ñ' then ['n', Char.ofNat 0x303]
  else [c]

/-- NFKD over a character list. -/
def nfkdStr (l : List Char) : List Char := l.flatMap nfkdChar

/-- Python `text.encode('ascii', 'ignore').decode('ascii')`. -/
def asciiIgnore (l : List Char) : List Char := l.filter (fun c => c.toNat < 128)

/-- Python `text.lower()` (ASCII range; the text reaching this step is
ASCII except for characters the next steps drop or replace anyway). -/
def lowerStr (l : List Char) : List Char := l.map Char.toLower

/-- Deletion of remaining apostrophes (`QUOTE_PATTERN.sub('', text)`). -/
def quoteDel (l : List Char) : List Char := l.filter (fun c => c != quoteChar)

/-- Removal of commas sitting between two digits
(`NUMBERS_PATTERN = r'(?<=\d),(?=\d)'`), as a fuelled scan. -/
def numbersCleanupAux : Nat → List Char → List Char
  | 0, l => l
  | _, [] => []
  | _, [a] => [a]
  | _, [a, b] => [a, b]
  | fuel + 1, a :: b :: c :: rest =>
      if b = ',' && a.isDigit && c.isDigit then a :: numbersCleanupAux fuel (c :: rest)
      else a :: numbersCleanupAux fuel (b :: c :: rest)

/-- Removal entry point (the fuel bounds the scan length). -/
def numbersCleanup (l : List Char) : List Char := numbersCleanupAux l.length l

/-- Replacement of every maximal run of disallowed characters by one dash
(`re.sub(ALLOWED_CHARS_PATTERN, '-', text)`). -/
def allowedSub (prevSep : Bool) : List Char → List Char
  | [] => []
  | c :: rest =>
      if allowedChar c then c :: allowedSub false rest
      else if prevSep then allowedSub true rest
      else '-' :: allowedSub true rest

/-- Collapse of dash runs to a single dash
(`DUPLICATE_DASH_PATTERN.sub('-', text)`). -/
def collapseDash (prevDash : Bool) : List Char → List Char
  | [] => []
  | c :: rest =>
      if c = '-' then
        if prevDash then collapseDash true rest else '-' :: collapseDash true rest
      else c :: collapseDash false rest

/-- Removal of a trailing dash run. -/
def dropTrailingDash : List Char → List Char
  | [] => []
  | c :: rest =>
      if c = '-' then
        match dropTrailingDash rest with
        | [] => []
        | x :: xs => '-' :: x :: xs
      else c :: dropTrailingDash rest

/-- Python `text.strip('-')`. -/
def stripDash (l : List Char) : List Char :=
  dropTrailingDash (l.dropWhile (fun c => c == '-'))

/-- Final separator substitution
(`text.replace('-', separator)` when the separator is not the dash). -/
def sepReplace (sep : String) (l : List Char) : List Char :=
  l.flatMap (fun c => if c = '-' then sep.data else [c])

/-- Embedding of `slugify(text, separator=separator)` with the library's
default arguments, step for step in the library's order. -/
def slugify (text : String) (separator : String) : String :=
  let t0 := quoteSubDash false text.data
  let t1 := unidecodeStr t0
  let t2 := refPass entityMatch t1
  let t3 := refPass decMatch t2
  let t4 := refPass hexMatch t3
  let t5 := asciiIgnore (nfkdStr t4)
  let t6 := lowerStr t5
  let t7 := quoteDel t6
  let t8 := numbersCleanup t7
  let t9 := allowedSub false t8
  let t10 := stripDash (collapseDash false t9)
  String.mk (if separator = "-" then t10 else sepReplace separator t10)

/-- Embedding of `utils.to_snake_cols` on the frame's column-name list:
`[slugify(str(c), separator="_") for c in df.columns]`. -/
def to_snake_cols (cols : List String) : List String :=
  cols.map (fun c => slugify c "_")

/-! ## Silver job (`silver_job.py`)

Rows are modelled at the typed stage of `clean_and_type`: the business key
`pokedex_number` after its nullable-integer coercion, the
`_ingestion_ts_utc` string stamped by the bronze job, the parsed
`abilities_list` (a parse failure is `none`, a parsed list may contain null
entries), and an opaque remainder holding every other column of the row.
The per-cell coercion steps of `clean_and_type` (lines 88-112) act within a
row; the row-set effect of the function — the business-key deduplication of
lines 114-119 — is transcribed on these rows.  The legacy-typo column
rename of lines 84-86 is a column-level operation and is embedded
separately on the frame's (name, column) list view. -/

/-- One silver-stage row. -/
structure SilverRow (ρ : Type) where
  pokedex_number : Option Int
  ingestion_ts_utc : String
  abilities_list : Option (List (Option String))
  rest : ρ
deriving Repr, DecidableEq

/-- Embedding of `out.sort_values("_ingestion_ts_utc")`: a permutation of
the rows that is nondecreasing in the timestamp string (pandas' default
quicksort leaves tie order unspecified; a merge sort realizes one valid
outcome, and no claim below depends on tie order). -/
def sort_values_ts {ρ : Type} (rows : List (SilverRow ρ)) : List (SilverRow ρ) :=
  rows.mergeSort (fun a b => decide (a.ingestion_ts_utc ≤ b.ingestion_ts_utc))

/-- Embedding of `.drop_duplicates(subset=["pokedex_number"], keep="last")`:
a row survives exactly when no later row carries the same business-key
value (pandas treats null keys as equal to each other, as `Option.some`
equality does here). -/
def drop_duplicates_keep_last {ρ : Type} [DecidableEq ρ] :
    List (SilverRow ρ) → List (SilverRow ρ)
  | [] => []
  | r :: rs =>
      if rs.any (fun x => x.pokedex_number == r.pokedex_number) then
        drop_duplicates_keep_last rs
      else r :: drop_duplicates_keep_last rs

/-- Row-set effect of `silver_job.clean_and_type` (lines 114-119): sort by
ingestion timestamp, then keep the last occurrence per business key. -/
def clean_and_type {ρ : Type} [DecidableEq ρ] (rows : List (SilverRow ρ)) :
    List (SilverRow ρ) :=
  drop_duplicates_keep_last (sort_values_ts rows)

/-- Embedding of the typo-rename step of `clean_and_type` (lines 84-86) on
the frame's ordered (column name, column content) list:
`out.rename(columns={"classfication": "classification"})`, applied only
when `classfication` is present and `classification` is absent. -/
def rename_typo_step {α : Type} (df : List (String × α)) : List (String × α) :=
  if (df.any (fun p => p.1 == "classfication")) && !(df.any (fun p => p.1 == "classification"))
  then df.map (fun p => (if p.1 == "classfication" then "classification" else p.1, p.2))
  else df

/-- Embedding of
`df[["pokedex_number", "abilities_list"]].explode("abilities_list")`:
a row whose list is null or empty contributes a single row with a null
ability (pandas explode semantics), a row with entries contributes one row
per entry. -/
def explode_abilities {ρ : Type} (rows : List (SilverRow ρ)) :
    List (Option Int × Option String) :=
  rows.flatMap (fun r =>
    match r.abilities_list with
    | none => [(r.pokedex_number, none)]
    | some [] => [(r.pokedex_number, none)]
    | some (a :: tl) => (a :: tl).map (fun x => (r.pokedex_number, x)))

/-- The bridge frame of `write_silver_ability_bridge` (line 144): the
explode above followed by `.dropna()`, which removes every row with a null
business key or a null ability. -/
def bridge_rows {ρ : Type} (rows : List (SilverRow ρ)) :
    List (Option Int × Option String) :=
  (explode_abilities rows).filter (fun p => p.1.isSome && p.2.isSome)

/-- A frame value reaching the S3 writer: the silver main frame or the
ability bridge frame. -/
inductive FrameVal (ρ : Type) where
  | main (rows : List (SilverRow ρ))
  | bridge (rows : List (Option Int × Option String))
deriving DecidableEq

/-- A Python value in an argument slot of `s3_put_parquet` (the code is
dynamically typed, so mismatched calls type-check in Python and fail at
run time). -/
inductive PyVal (ρ : Type) where
  | client
  | frame (f : FrameVal ρ)
  | str (s : String)
  | meta (m : List (String × String))
  | noneV
deriving DecidableEq

/-- One object written to S3 by the silver job. -/
structure SilverPut (ρ : Type) where
  bucket : String
  key : String
  frame : FrameVal ρ
deriving DecidableEq

/-- Embedding of `utils.s3_put_parquet(s3_client, df, bucket, key,
metadata)` (lines 114-125): `pyarrow.Table.from_pandas(df)` raises
`TypeError` unless `df` is an actual DataFrame, and the upload needs string
bucket and key values.  The client and metadata slots are not inspected. -/
def s3_put_parquet {ρ : Type} (_s3_client df bucket key _metadata : PyVal ρ) :
    Except PyErr (SilverPut ρ) :=
  match df with
  | PyVal.frame f =>
      match bucket, key with
      | PyVal.str b, PyVal.str k => Except.ok ⟨b, k, f⟩
      | _, _ => Except.error PyErr.notAString
  | _ => Except.error PyErr.notADataFrame

/-- Configuration and run identity of the silver job (module level of
`silver_job.py`): bucket, silver prefix, output partition date `DT_TODAY`,
run id and batch id. -/
structure SilverEnv where
  bucket : String
  silverDir : String
  dtToday : String
  runId : String
  batchId : String

/-- Embedding of `silver_job.write_silver_main` (lines 128-138).  The
arguments are passed positionally exactly as the source call
`s3_put_parquet(df, S3_BUCKET, key, meta)` passes them: the frame lands in
the helper's client slot, the bucket string in its frame slot, the key in
its bucket slot and the metadata dict in its key slot (the comment in the
source claims the helper "uses an internal client", but `utils.
s3_put_parquet` takes the client as its first parameter). -/
def write_silver_main {ρ : Type} (env : SilverEnv) (df : List (SilverRow ρ)) :
    Except PyErr (SilverPut ρ) :=
  let key := env.silverDir ++ "/dt=" ++ env.dtToday ++ "/pokemon.parquet"
  let meta := [("layer", "silver"), ("table", "pokemon"), ("dt", env.dtToday),
    ("run_id", env.runId), ("batch_id", env.batchId)]
  s3_put_parquet (PyVal.frame (FrameVal.main df)) (PyVal.str env.bucket)
    (PyVal.str key) (PyVal.meta meta) PyVal.noneV

/-- Embedding of `silver_job.write_silver_ability_bridge` (lines 140-155);
this call passes the client first, as the helper expects.  The
column-presence guard of lines 141-143 is discharged by the typed frame. -/
def write_silver_ability_bridge {ρ : Type} (env : SilverEnv) (df : List (SilverRow ρ)) :
    Except PyErr (SilverPut ρ) :=
  let key := env.silverDir ++ "/dt=" ++ env.dtToday ++ "/pokemon_ability_bridge.parquet"
  let meta := [("layer", "silver"), ("table", "pokemon_ability_bridge"), ("dt", env.dtToday),
    ("run_id", env.runId), ("batch_id", env.batchId)]
  s3_put_parquet PyVal.client (PyVal.frame (FrameVal.bridge (bridge_rows df)))
    (PyVal.str env.bucket) (PyVal.str key) (PyVal.meta meta)

/-- Embedding of `silver_job.load_bronze_df` (lines 53-61): the frame read
under the bronze prefix (the caller's row list reflects any partition
filter), raising `FileNotFoundError` when it is empty. -/
def load_bronze_df {ρ : Type} (rows : List (SilverRow ρ)) :
    Except PyErr (List (SilverRow ρ)) :=
  if rows.isEmpty then Except.error PyErr.noDataBronze else Except.ok rows

/-- Embedding of `silver_job.run` (lines 158-162): load bronze, clean,
write the main table, write the bridge. -/
def run {ρ : Type} [DecidableEq ρ] (env : SilverEnv) (bronze : List (SilverRow ρ)) :
    Except PyErr (List (SilverPut ρ)) :=
  match load_bronze_df bronze with
  | Except.error e => Except.error e
  | Except.ok df =>
      let silver := clean_and_type df
      match write_silver_main env silver with
      | Except.error e => Except.error e
      | Except.ok p1 =>
          match write_silver_ability_bridge env silver with
          | Except.error e => Except.error e
          | Except.ok p2 => Except.ok [p1, p2]

/-- Discovery yields at least one CSV source (the spec's notion in §4.1): a
non-zero-size `.csv` key, or a non-zero-size `.zip` key containing at least
one non-directory `.csv` entry. -/
def has_csv_source (listing : List RawObject) : Bool :=
  (listing.filter (fun o => o.size != 0)).any (fun o =>
    (pyEndsWith (pyLower o.key) ".csv") ||
    ((pyEndsWith (pyLower o.key) ".zip") &&
      match o.body with
      | ObjectBody.archive es =>
          es.any (fun e => !(pyEndsWith e.filename "/") && pyEndsWith (pyLower e.filename) ".csv")
      | ObjectBody.plain _ => false))

/-- Dash-to-underscore renaming: the per-character effect of the final
separator substitution of `slugify` with separator `"_"`. -/
def underOfDash (c : Char) : Char := if c = '-' then '_' else c

/-- Underscore-to-dash renaming, its inverse on the slug alphabet. -/
def dashOfUnder (c : Char) : Char := if c = '_' then '-' else c

/-- No two adjacent dashes occur in the list. -/
def NoTwoDashes (l : List Char) : Prop :=
  List.Chain' (fun a b => ¬(a = '-' ∧ b = '-')) l

/-- No two adjacent underscores occur in the list. -/
def NoTwoUnders (l : List Char) : Prop :=
  List.Chain' (fun a b => ¬(a = '_' ∧ b = '_')) l

/-! ## Theorems -/

/-- Claim C1 (code bug): the spec says a silver run writes the full-width
main table to `<silver_prefix>/dt=<date>/pokemon.parquet` and overwrites
that key on re-runs, but `write_silver_main` passes its arguments to
`s3_put_parquet` shifted by one slot (the frame where the client belongs,
the bucket where the frame belongs), so `pyarrow.Table.from_pandas`
receives a string and every invocation raises `TypeError`: the main-table
write never happens, and the whole silver run fails on every non-empty
bronze frame without producing any output object. -/
theorem c1_write_silver_main_never_writes {ρ : Type} [DecidableEq ρ]
    (env : SilverEnv) (df : List (SilverRow ρ)) (r : SilverRow ρ)
    (rows : List (SilverRow ρ)) :
    write_silver_main env df = Except.error PyErr.notADataFrame ∧
    run env (r :: rows) = Except.error PyErr.notADataFrame :=
  ⟨rfl, rfl⟩

/-- Claim C9: `load_bronze_df` raises the fatal no-data error exactly on an
empty bronze frame, the silver run on an empty frame stops with that error
before writing anything (an `Except.error` run produces no put), and on a
non-empty frame the run never reports the no-data error (it fails with the
unrelated `TypeError` of claim C1 instead). -/
theorem c9_empty_bronze_guard {ρ : Type} [DecidableEq ρ] (env : SilverEnv)
    (rows : List (SilverRow ρ)) :
    (load_bronze_df rows = Except.error PyErr.noDataBronze ↔ rows = []) ∧
    run env ([] : List (SilverRow ρ)) = Except.error PyErr.noDataBronze ∧
    ∀ (r : SilverRow ρ) (tl : List (SilverRow ρ)),
      run env (r :: tl) = Except.error PyErr.notADataFrame := by
  refine ⟨⟨?_, ?_⟩, rfl, fun r tl => rfl⟩
  · intro h
    cases rows with
    | nil => rfl
    | cons r tl => simp [load_bronze_df] at h
  · rintro rfl
    rfl

/-- Witness for C9 at concrete inputs. -/
theorem c9_empty_bronze_guard_witness :
    load_bronze_df ([] : List (SilverRow Unit)) = Except.error PyErr.noDataBronze ∧
    run ⟨"mybucket-digo", "silver/kaggle/pokemon", "2025-08-11", "r1", "2025_08_11_00"⟩
      ([] : List (SilverRow Unit)) = Except.error PyErr.noDataBronze :=
  ⟨(c9_empty_bronze_guard ⟨"mybucket-digo", "silver/kaggle/pokemon", "2025-08-11", "r1",
      "2025_08_11_00"⟩ ([] : List (SilverRow Unit))).1.mpr rfl,
   (c9_empty_bronze_guard ⟨"mybucket-digo", "silver/kaggle/pokemon", "2025-08-11", "r1",
      "2025_08_11_00"⟩ ([] : List (SilverRow Unit))).2.1⟩

/-- Claim C10: every row of the ability bridge has a non-null business key
and a non-null ability; a row with a null business key contributes no
bridge rows even when its list is non-empty; a row whose abilities list is
null or empty contributes no bridge rows; and the bridge of a concatenation
is the concatenation of the bridges (so "contributes" is well defined). -/
theorem c10_bridge_rows_not_null {ρ : Type} (rows : List (SilverRow ρ)) :
    (∀ p ∈ bridge_rows rows, p.1.isSome = true ∧ p.2.isSome = true) ∧
    (∀ r : SilverRow ρ, r.pokedex_number = none → bridge_rows [r] = []) ∧
    (∀ r : SilverRow ρ, r.abilities_list = none ∨ r.abilities_list = some [] →
      bridge_rows [r] = []) ∧
    (∀ xs ys : List (SilverRow ρ), bridge_rows (xs ++ ys) = bridge_rows xs ++ bridge_rows ys) := by
  refine ⟨?_, ?_, ?_, ?_⟩
  · intro p hp
    simp only [bridge_rows, List.mem_filter, Bool.and_eq_true] at hp
    exact hp.2
  · intro r h
    rcases habl : r.abilities_list with _ | l
    · simp [bridge_rows, explode_abilities, habl, h]
    · cases l with
      | nil => simp [bridge_rows, explode_abilities, habl, h]
      | cons a tl => simp [bridge_rows, explode_abilities, habl, h, List.filter_map]
  · intro r h
    rcases h with h | h <;> simp [bridge_rows, explode_abilities, h]
  · intro xs ys
    simp [bridge_rows, explode_abilities, List.flatMap_append, List.filter_append]

/-- Witness for C10 at concrete inputs. -/
theorem c10_bridge_rows_not_null_witness :
    ((some (1 : Int)).isSome = true ∧ (some "Overgrow").isSome = true) ∧
    bridge_rows [(⟨none, "t", some [some "Hustle"], ()⟩ : SilverRow Unit)] = [] ∧
    bridge_rows [(⟨some 7, "t", some [], ()⟩ : SilverRow Unit)] = [] :=
  ⟨(c10_bridge_rows_not_null
      [(⟨some 1, "t", some [some "Overgrow", some "Chlorophyll"], ()⟩ : SilverRow Unit)]).1
      (some 1, some "Overgrow") (by decide),
   (c10_bridge_rows_not_null ([] : List (SilverRow Unit))).2.1
      ⟨none, "t", some [some "Hustle"], ()⟩ rfl,
   (c10_bridge_rows_not_null ([] : List (SilverRow Unit))).2.2.1
      ⟨some 7, "t", some [], ()⟩ (Or.inr rfl)⟩

/-- Claim C8: the cleaning pipeline renames column `classfication` to
`classification` exactly when the misspelled name is present and the
corrected name is absent — in that case every `classfication` label is
rewritten and every other label and all contents stay as they are — and
otherwise (corrected name already present, or misspelling absent) the frame
is left completely unchanged. -/
theorem c8_rename_no_clobber {α : Type} (df : List (String × α)) :
    ((∃ v, ("classfication", v) ∈ df) ∧ (∀ v, ("classification", v) ∉ df) →
      rename_typo_step df =
        df.map (fun p => (if p.1 = "classfication" then "classification" else p.1, p.2))) ∧
    ((∀ v, ("classfication", v) ∉ df) ∨ (∃ v, ("classification", v) ∈ df) →
      rename_typo_step df = df) := by
  constructor
  · rintro ⟨⟨v, hv⟩, habs⟩
    have h1 : df.any (fun p => p.1 == "classfication") = true :=
      List.any_eq_true.mpr ⟨("classfication", v), hv, by simp⟩
    have h2 : df.any (fun p => p.1 == "classification") = false := by
      rw [List.any_eq_false]
      rintro ⟨n, w⟩ hmem hn
      simp only [beq_iff_eq] at hn
      exact habs w (hn ▸ hmem)
    simp [rename_typo_step, h1, h2]
  · rintro (h | ⟨v, hv⟩)
    · have h1 : df.any (fun p => p.1 == "classfication") = false := by
        rw [List.any_eq_false]
        rintro ⟨n, w⟩ hmem hn
        simp only [beq_iff_eq] at hn
        exact h w (hn ▸ hmem)
      simp [rename_typo_step, h1]
    · have h2 : df.any (fun p => p.1 == "classification") = true :=
        List.any_eq_true.mpr ⟨("classification", v), hv, by simp⟩
      simp [rename_typo_step, h2]

/-- Witness for C8 at concrete frames: the misspelled-only frame is
renamed, the frame that already has the corrected column is untouched. -/
theorem c8_rename_no_clobber_witness :
    rename_typo_step [("classfication", 0), ("name", 1)] =
      ([("classfication", 0), ("name", 1)].map
        (fun p => (if p.1 = "classfication" then "classification" else p.1, p.2))) ∧
    rename_typo_step [("classfication", 0), ("classification", 2)] =
      [("classfication", 0), ("classification", 2)] :=
  ⟨(c8_rename_no_clobber [("classfication", 0), ("name", 1)]).1
      ⟨⟨0, by simp⟩, by intro v; simp⟩,
   (c8_rename_no_clobber [("classfication", 0), ("classification", 2)]).2
      (Or.inr ⟨2, by simp⟩)⟩

/-- Claim C5: processing a ZIP archive produces exactly one bronze output
per non-directory entry whose lowercased name ends in `.csv`, in archive
order, and the source-file provenance of each output is the in-archive
entry name; directory entries and non-CSV entries produce nothing. -/
theorem c5_zip_fanout (env : BronzeEnv) (entries : List ZipEntry) :
    zip_csv_outputs env entries =
      (entries.filter (fun e => !(pyEndsWith e.filename "/") &&
        pyEndsWith (pyLower e.filename) ".csv")).map
        (fun e => process_csv_bytes env e.data e.filename) ∧
    (zip_csv_outputs env entries).map (fun p => p.source_file) =
      (entries.filter (fun e => !(pyEndsWith e.filename "/") &&
        pyEndsWith (pyLower e.filename) ".csv")).map (fun e => e.filename) := by
  have h1 : zip_csv_outputs env entries =
      (entries.filter (fun e => !(pyEndsWith e.filename "/") &&
        pyEndsWith (pyLower e.filename) ".csv")).map
        (fun e => process_csv_bytes env e.data e.filename) := by
    induction entries with
    | nil => rfl
    | cons e tl ih =>
        cases hA : pyEndsWith e.filename "/" <;>
          cases hB : pyEndsWith (pyLower e.filename) ".csv" <;>
            simp [zip_csv_outputs, hA, hB, ih]
  refine ⟨h1, ?_⟩
  rw [h1, List.map_map]
  rfl

/-- The object loop can only raise the bad-archive error: the fatal
no-objects error comes from the emptiness check after the loop, never from
inside it. -/
theorem bronzeLoop_error_badZip (env : BronzeEnv) :
    ∀ (objs : List RawObject) (e : PyErr),
      bronzeLoop env objs = Except.error e → e = PyErr.badZipFile := by
  intro objs
  induction objs with
  | nil => intro e h; simp [bronzeLoop] at h
  | cons o rest ih =>
      intro e h
      simp only [bronzeLoop] at h
      split at h
      · cases hb : bronzeLoop env rest with
        | error e2 => rw [hb] at h; injection h with h2; exact h2 ▸ ih e2 hb
        | ok tl => rw [hb] at h; simp at h
      · split at h
        · split at h
          · cases hb : bronzeLoop env rest with
            | error e2 => rw [hb] at h; injection h with h2; exact h2 ▸ ih e2 hb
            | ok tl => rw [hb] at h; simp at h
          · injection h with h2; exact h2.symm
        · exact ih e h

/-- Counterexample to claim C2: a raw listing with one non-empty object
whose key ends in neither `.csv` nor `.zip` yields zero CSV sources, yet
the bronze run completes without the fatal error (it returns an empty
output set), because the code raises only when the listing itself is
empty. -/
theorem c2_counterexample :
    has_csv_source [⟨"raw/kaggle/notes.txt", 5, ObjectBody.plain [110]⟩] = false ∧
    bronze_from_s3_raw
      ⟨"mybucket-digo", "bronze/kaggle/pokemon", "r1", "2025_08_11_00", "2025-08-11", none⟩
      [⟨"raw/kaggle/notes.txt", 5, ObjectBody.plain [110]⟩] = Except.ok [] :=
  ⟨rfl, rfl⟩

/-- Claim C2 as amended: the bronze ingestion run raises its fatal
`FileNotFoundError` exactly when the listing contains no non-zero-size
object at all; in particular a listing with at least one CSV source never
raises it (but a listing of only non-CSV objects does not raise it
either, although it yields zero CSV sources). -/
theorem c2_amended_no_objects_guard (env : BronzeEnv) (listing : List RawObject) :
    (bronze_from_s3_raw env listing = Except.error PyErr.noObjectsFound ↔
      (listing.filter (fun o => o.size != 0)).isEmpty = true) ∧
    (has_csv_source listing = true →
      (listing.filter (fun o => o.size != 0)).isEmpty = false) ∧
    (has_csv_source listing = true →
      bronze_from_s3_raw env listing ≠ Except.error PyErr.noObjectsFound) := by
  have hiff : bronze_from_s3_raw env listing = Except.error PyErr.noObjectsFound ↔
      (listing.filter (fun o => o.size != 0)).isEmpty = true := by
    unfold bronze_from_s3_raw
    dsimp only
    cases hb : bronzeLoop env (listing.filter (fun o => o.size != 0)) with
    | error e =>
        have he := bronzeLoop_error_badZip env _ e hb
        subst he
        constructor
        · intro h; simp at h
        · intro hemp
          exfalso
          rw [List.isEmpty_iff.mp hemp] at hb
          simp [bronzeLoop] at hb
    | ok puts =>
        cases hemp : (listing.filter (fun o => o.size != 0)).isEmpty with
        | true => simp [hemp]
        | false => simp [hemp]
  have himp : has_csv_source listing = true →
      (listing.filter (fun o => o.size != 0)).isEmpty = false := by
    intro hc
    cases hemp : (listing.filter (fun o => o.size != 0)).isEmpty with
    | false => rfl
    | true =>
        exfalso
        unfold has_csv_source at hc
        rw [List.isEmpty_iff.mp hemp] at hc
        simp at hc
  refine ⟨hiff, himp, fun hc h => ?_⟩
  have h1 := hiff.mp h
  rw [himp hc] at h1
  cases h1

/-- Witness for the amended C2 at a concrete CSV listing. -/
theorem c2_amended_no_objects_guard_witness :
    ([(⟨"raw/kaggle/pokemon.csv", 3, ObjectBody.plain [97]⟩ : RawObject)].filter
      (fun o => o.size != 0)).isEmpty = false :=
  (c2_amended_no_objects_guard
    ⟨"mybucket-digo", "bronze/kaggle/pokemon", "r1", "2025_08_11_00", "2025-08-11", none⟩
    [⟨"raw/kaggle/pokemon.csv", 3, ObjectBody.plain [97]⟩]).2.1 rfl

/-- Claim C6: with no configured delimiter, detection is a pure function of
the first 4096 payload bytes, a successful sniff only ever returns one of
the candidates `,`, `;`, tab, `|` (so the delimiter actually used also lies
in that set), and any sniffing failure is the value `none` — the decode
then falls back to the pandas default comma rather than raising. -/
theorem c6_delimiter_detection (b : List Nat) :
    (∀ c, detect_csv_delimiter b = some c → c ∈ [',', ';', '\t', '|']) ∧
    chosen_sep none b ∈ [',', ';', '\t', '|'] ∧
    (∀ b2 : List Nat, b.take 4096 = b2.take 4096 →
      chosen_sep none b = chosen_sep none b2) ∧
    (detect_csv_delimiter (b.take 4096) = none → chosen_sep none b = ',') := by
  have hmem : ∀ (s : List Char) (c : Char),
      sniff_model s = some c → c ∈ [',', ';', '\t', '|'] := by
    intro s c h
    simp only [sniff_model] at h
    split at h
    · cases h
    · have hm := List.mem_of_find?_eq_some h
      simp only [List.mem_cons, List.not_mem_nil, or_false] at hm
      rcases hm with rfl | rfl | rfl | rfl <;> simp
  refine ⟨?_, ?_, ?_, ?_⟩
  · intro c h
    exact hmem _ c h
  · cases hd : detect_csv_delimiter (b.take 4096) with
    | some s =>
        have : chosen_sep none b = s := by simp [chosen_sep, hd]
        rw [this]
        exact hmem _ s hd
    | none => simp [chosen_sep, hd]
  · intro b2 hpre
    unfold chosen_sep detect_csv_delimiter
    rw [hpre]
  · intro h
    simp [chosen_sep, h]

/-- Witness for C6: a semicolon sample sniffs to the semicolon candidate,
the empty sample falls back to the comma. -/
theorem c6_delimiter_detection_witness :
    (';' ∈ [',', ';', '\t', '|']) ∧ chosen_sep none [] = ',' :=
  ⟨(c6_delimiter_detection [97, 59, 98, 10, 99, 59, 100]).1 ';' rfl,
   (c6_delimiter_detection []).2.2.2 rfl⟩

/-- Rows surviving `drop_duplicates` come from the input frame. -/
theorem ddkl_subset {ρ : Type} [DecidableEq ρ] :
    ∀ {l : List (SilverRow ρ)} {x : SilverRow ρ},
      x ∈ drop_duplicates_keep_last l → x ∈ l := by
  intro l
  induction l with
  | nil => intro x h; simp [drop_duplicates_keep_last] at h
  | cons r rs ih =>
      intro x h
      simp only [drop_duplicates_keep_last] at h
      split at h
      · exact List.mem_cons_of_mem r (ih h)
      · rcases List.mem_cons.mp h with rfl | h2
        · exact List.mem_cons_self x rs
        · exact List.mem_cons_of_mem r (ih h2)

/-- Keep-last characterization: restricted to one business-key value, the
deduplicated frame is exactly the last occurrence of that key in the input
order. -/
theorem ddkl_filter_key {ρ : Type} [DecidableEq ρ] (k : Option Int) :
    ∀ l : List (SilverRow ρ),
      (drop_duplicates_keep_last l).filter (fun y => y.pokedex_number == k) =
        ((l.filter (fun y => y.pokedex_number == k)).getLast?).toList := by
  intro l
  induction l with
  | nil => rfl
  | cons r rs ih =>
      cases hany : rs.any (fun x => x.pokedex_number == r.pokedex_number) with
      | true =>
          rw [show drop_duplicates_keep_last (r :: rs) = drop_duplicates_keep_last rs from
            by simp [drop_duplicates_keep_last, hany]]
          rw [ih]
          by_cases hk : r.pokedex_number = k
          · have hfil : List.filter (fun y => y.pokedex_number == k) (r :: rs) =
                r :: List.filter (fun y => y.pokedex_number == k) rs := by
              simp [List.filter_cons, hk]
            rw [hfil]
            obtain ⟨x, hx, hpx⟩ := List.any_eq_true.mp hany
            have hxk : x.pokedex_number = k := (eq_of_beq hpx).trans hk
            have hmemf : x ∈ List.filter (fun y => y.pokedex_number == k) rs :=
              List.mem_filter.mpr ⟨hx, by simp [hxk]⟩
            have hne : List.filter (fun y => y.pokedex_number == k) rs ≠ [] := by
              intro hnil
              rw [hnil] at hmemf
              simp at hmemf
            obtain ⟨y, ys, hys⟩ := List.exists_cons_of_ne_nil hne
            rw [hys, List.getLast?_cons_cons]
          · have hfil : List.filter (fun y => y.pokedex_number == k) (r :: rs) =
                List.filter (fun y => y.pokedex_number == k) rs := by
              simp [List.filter_cons, hk]
            rw [hfil]
      | false =>
          rw [show drop_duplicates_keep_last (r :: rs) =
              r :: drop_duplicates_keep_last rs from
            by simp [drop_duplicates_keep_last, hany]]
          have hnone := List.any_eq_false.mp hany
          by_cases hk : r.pokedex_number = k
          · have hfil_rs : List.filter (fun y => y.pokedex_number == k) rs = [] := by
              rw [List.filter_eq_nil_iff]
              intro x hx
              rw [← hk]
              exact hnone x hx
            have hfil_dd : List.filter (fun y => y.pokedex_number == k)
                (drop_duplicates_keep_last rs) = [] := by
              rw [List.filter_eq_nil_iff]
              intro x hx hpx
              have hmem : x ∈ List.filter (fun y => y.pokedex_number == k) rs :=
                List.mem_filter.mpr ⟨ddkl_subset hx, hpx⟩
              rw [hfil_rs] at hmem
              simp at hmem
            simp [List.filter_cons, hk, hfil_rs, hfil_dd]
          · simp [List.filter_cons, hk, ih]

/-- In a timestamp-sorted list in which the row `r` is the strict latest
among the rows it can be confused with, the last element is `r`. -/
theorem sorted_getLast_of_max {ρ : Type} (r : SilverRow ρ) :
    ∀ l : List (SilverRow ρ),
      List.Pairwise
        (fun a b => (decide (a.ingestion_ts_utc ≤ b.ingestion_ts_utc)) = true) l →
      r ∈ l → (∀ y ∈ l, y = r ∨ y.ingestion_ts_utc < r.ingestion_ts_utc) →
      l.getLast? = some r := by
  intro l
  induction l with
  | nil => intro _ h _; simp at h
  | cons a tl ih =>
      intro hp hmem hprop
      cases tl with
      | nil =>
          have : r = a := by simpa using hmem
          subst this
          rfl
      | cons b tl2 =>
          have hstep : r ∈ b :: tl2 := by
            rcases List.mem_cons.mp hmem with rfl | h2
            · have hb := hprop b (by simp)
              have hle : (decide (r.ingestion_ts_utc ≤ b.ingestion_ts_utc)) = true :=
                (List.pairwise_cons.mp hp).1 b (by simp)
              have hle2 : r.ingestion_ts_utc ≤ b.ingestion_ts_utc := of_decide_eq_true hle
              rcases hb with rfl | hlt
              · exact List.mem_cons_self b tl2
              · exact absurd hlt (not_lt.mpr hle2)
            · exact h2
          rw [List.getLast?_cons_cons]
          exact ih (List.pairwise_cons.mp hp).2 hstep
            (fun y hy => hprop y (List.mem_cons_of_mem a hy))

/-- Claim C3: after the cleaning pipeline's deduplication the silver frame
has at most one row per business-key value; and whenever a row `r` of the
bronze frame is strictly the most recently ingested among the rows sharing
its business key (rows equal to `r` in all columns allowed), `r` itself
survives and every surviving row with that key is exactly `r`, all column
values included. -/
theorem c3_dedup_by_business_key {ρ : Type} [DecidableEq ρ]
    (rows : List (SilverRow ρ)) :
    (∀ k : Option Int,
      ((clean_and_type rows).filter (fun y => y.pokedex_number == k)).length ≤ 1) ∧
    (∀ r ∈ rows,
      (∀ y ∈ rows, y.pokedex_number = r.pokedex_number →
        y = r ∨ y.ingestion_ts_utc < r.ingestion_ts_utc) →
      r ∈ clean_and_type rows ∧
        ∀ x ∈ clean_and_type rows, x.pokedex_number = r.pokedex_number → x = r) := by
  have hperm := List.mergeSort_perm rows
    (fun a b => decide (a.ingestion_ts_utc ≤ b.ingestion_ts_utc))
  constructor
  · intro k
    rw [show clean_and_type rows = drop_duplicates_keep_last (sort_values_ts rows) from rfl,
      ddkl_filter_key k (sort_values_ts rows)]
    cases hgl : ((sort_values_ts rows).filter (fun y => y.pokedex_number == k)).getLast? <;>
      simp
  · intro r hr hmax
    have hsorted : List.Pairwise
        (fun a b => (decide (a.ingestion_ts_utc ≤ b.ingestion_ts_utc)) = true)
        (sort_values_ts rows) := by
      apply List.sorted_mergeSort
      · intro a b c hab hbc
        exact decide_eq_true (le_trans (of_decide_eq_true hab) (of_decide_eq_true hbc))
      · intro a b
        rcases le_total a.ingestion_ts_utc b.ingestion_ts_utc with h | h
        · rw [decide_eq_true h, Bool.true_or]
        · rw [decide_eq_true h, Bool.or_true]
    have hmem_s : r ∈ sort_values_ts rows := hperm.mem_iff.mpr hr
    have hfl : ((sort_values_ts rows).filter
        (fun y => y.pokedex_number == r.pokedex_number)).getLast? = some r := by
      apply sorted_getLast_of_max
      · exact List.Pairwise.filter _ hsorted
      · exact List.mem_filter.mpr ⟨hmem_s, by simp⟩
      · intro y hy
        have hy2 := List.mem_filter.mp hy
        exact hmax y (hperm.mem_iff.mp hy2.1) (eq_of_beq hy2.2)
    have hdd := ddkl_filter_key (r.pokedex_number) (sort_values_ts rows)
    rw [hfl] at hdd
    have hfilter_eq : (clean_and_type rows).filter
        (fun y => y.pokedex_number == r.pokedex_number) = [r] := by
      simpa using hdd
    constructor
    · have hin : r ∈ (clean_and_type rows).filter
          (fun y => y.pokedex_number == r.pokedex_number) := by
        rw [hfilter_eq]
        simp
      exact List.mem_of_mem_filter hin
    · intro x hx hxk
      have hin : x ∈ (clean_and_type rows).filter
          (fun y => y.pokedex_number == r.pokedex_number) :=
        List.mem_filter.mpr ⟨hx, by simp [hxk]⟩
      rw [hfilter_eq] at hin
      simpa using hin

/-- Witness for C3: of two rows sharing business key 1 with different
ingestion timestamps, the later row survives the dedup. -/
theorem c3_dedup_by_business_key_witness :
    (⟨some 1, "2025-01-02T00:00:00", none, ()⟩ : SilverRow Unit) ∈
      clean_and_type [(⟨some 1, "2025-01-01T00:00:00", none, ()⟩ : SilverRow Unit),
        ⟨some 1, "2025-01-02T00:00:00", none, ()⟩] :=
  ((c3_dedup_by_business_key
      [(⟨some 1, "2025-01-01T00:00:00", none, ()⟩ : SilverRow Unit),
        ⟨some 1, "2025-01-02T00:00:00", none, ()⟩]).2
    ⟨some 1, "2025-01-02T00:00:00", none, ()⟩ (by simp)
    (by
      intro y hy hk
      rcases List.mem_cons.mp hy with rfl | hy2
      · right
        rw [String.lt_iff_toList_lt]
        decide
      · left
        simpa using hy2)).1

set_option maxHeartbeats 1000000 in
/-- Validation of the SHA-256 transcription on the FIPS empty-message test
vector (checked by kernel evaluation). -/
theorem sha256_bytes_empty_vector :
    (sha256_bytes []).data =
      "e3b0c44298fc1c149afbf4c8996fb92427ae41e4649b934ca495991b7852b855".data := by
  decide

/-- The digest always has 32 bytes. -/
theorem sha256_digest_length (m : List Nat) : (sha256_digest m).length = 32 := rfl

/-- Every digest entry is a byte value. -/
theorem sha256_digest_lt (m : List Nat) : ∀ b ∈ sha256_digest m, b < 256 := by
  intro b hb
  simp only [sha256_digest, List.mem_flatMap] at hb
  obtain ⟨w, hw, hbw⟩ := hb
  simp only [wordBytes, List.mem_cons, List.not_mem_nil, or_false] at hbw
  rcases hbw with rfl | rfl | rfl | rfl <;> omega

/-- The truncated fingerprint has exactly 12 nibbles. -/
theorem fp12_nibbles_length (m : List Nat) : (fp12_nibbles m).length = 12 := by
  have h : ((sha256_digest m).flatMap (fun b => [b / 16, b % 16])).length = 64 := by
    rw [List.length_flatMap]
    have hmap : List.map (List.length ∘ fun b => [b / 16, b % 16]) (sha256_digest m) =
        List.replicate 32 2 := by
      rw [List.eq_replicate_iff]
      constructor
      · rw [List.length_map, sha256_digest_length]
      · intro x hx
        obtain ⟨b, _, hb⟩ := List.mem_map.mp hx
        rw [← hb]
        rfl
    rw [hmap, List.sum_replicate]
    rfl
  simp only [fp12_nibbles, List.length_take, h]
  rfl

/-- Every entry of the truncated fingerprint is a nibble value. -/
theorem fp12_nibbles_lt (m : List Nat) : ∀ x ∈ fp12_nibbles m, x < 16 := by
  intro x hx
  have hx2 : x ∈ (sha256_digest m).flatMap (fun b => [b / 16, b % 16]) :=
    List.take_subset _ _ hx
  simp only [List.mem_flatMap, List.mem_cons, List.not_mem_nil, or_false] at hx2
  obtain ⟨b, hb, hxb⟩ := hx2
  have hblt := sha256_digest_lt m b hb
  rcases hxb with rfl | rfl
  · exact (Nat.div_lt_iff_lt_mul (by norm_num)).mpr (by omega)
  · exact Nat.mod_lt _ (by norm_num)

/-- The 12-character fingerprint prefix is the hex rendering of the first
12 digest nibbles. -/
theorem fp12_eq_nibbles (m : List Nat) :
    fp12 m = String.mk ((fp12_nibbles m).map hexChar) := by
  rw [fp12, sha256_bytes]
  have h : (sha256_digest m).flatMap (fun b => [hexChar (b / 16), hexChar (b % 16)]) =
      List.map hexChar ((sha256_digest m).flatMap (fun b => [b / 16, b % 16])) := by
    rw [List.map_flatMap]
    rfl
  rw [h, fp12_nibbles, List.map_take]

/-- The bronze output key, decomposed around the fingerprint prefix. -/
theorem process_key_eq (env : BronzeEnv) (b : List Nat) (n : String) :
    (process_csv_bytes env b n).key =
      env.bronzeDir ++ "/ingestion_date=" ++ env.ingestionDate ++ "/batch_id=" ++
        env.batchId ++ "/pokemon__" ++ fp12 b ++ ".parquet" := rfl

/-- The fingerprint prefix always has 12 characters. -/
theorem fp12_length (m : List Nat) : (fp12 m).data.length = 12 := by
  rw [fp12_eq_nibbles]
  simp [List.length_map, fp12_nibbles_length]

/-- Counterexample to the collision-freeness half of claim C4: the output
key embeds only 12 hex characters (48 bits) of the fingerprint, and a map
from the 2^56 byte strings of length 7 into 2^48 key values cannot be
injective, so two sources with different bytes in the same batch can share
the same output key.  The witness pair exists by pigeonhole; it is not
computed explicitly. -/
theorem c4_counterexample :
    ∃ b1 b2 : List Nat, b1 ≠ b2 ∧
      (process_csv_bytes
        ⟨"mybucket-digo", "bronze/kaggle/pokemon", "r1", "2025_08_11_00", "2025-08-11", none⟩
        b1 "a.csv").key =
      (process_csv_bytes
        ⟨"mybucket-digo", "bronze/kaggle/pokemon", "r1", "2025_08_11_00", "2025-08-11", none⟩
        b2 "b.csv").key := by
  let f : (Fin 7 → Fin 256) → (Fin 12 → Fin 16) := fun v i =>
    ⟨(fp12_nibbles ((List.ofFn v).map Fin.val)).getD i.val 0, by
      have hlen := fp12_nibbles_length ((List.ofFn v).map Fin.val)
      have hi : i.val < (fp12_nibbles ((List.ofFn v).map Fin.val)).length := by
        rw [hlen]; exact i.isLt
      rw [List.getD_eq_getElem _ _ hi]
      exact fp12_nibbles_lt _ _ (List.getElem_mem hi)⟩
  have hcard : Fintype.card (Fin 12 → Fin 16) < Fintype.card (Fin 7 → Fin 256) := by
    rw [Fintype.card_fun, Fintype.card_fun]
    simp only [Fintype.card_fin]
    norm_num
  obtain ⟨v1, v2, hne, heq⟩ := Fintype.exists_ne_map_eq_of_card_lt f hcard
  refine ⟨(List.ofFn v1).map Fin.val, (List.ofFn v2).map Fin.val, ?_, ?_⟩
  · intro hcontra
    apply hne
    apply List.ofFn_injective
    exact List.map_injective_iff.mpr Fin.val_injective hcontra
  · have hnibs : fp12_nibbles ((List.ofFn v1).map Fin.val) =
        fp12_nibbles ((List.ofFn v2).map Fin.val) := by
      apply List.ext_getElem
      · rw [fp12_nibbles_length, fp12_nibbles_length]
      · intro n h1 h2
        have hn : n < 12 := by
          rw [fp12_nibbles_length] at h1
          exact h1
        have hcomp := congrFun heq ⟨n, hn⟩
        have hval := congrArg Fin.val hcomp
        simp only [f] at hval
        rw [List.getD_eq_getElem _ _ h1, List.getD_eq_getElem _ _ h2] at hval
        exact hval
    have hfp : fp12 ((List.ofFn v1).map Fin.val) = fp12 ((List.ofFn v2).map Fin.val) := by
      rw [fp12_eq_nibbles, fp12_eq_nibbles, hnibs]
    rw [process_key_eq, process_key_eq, hfp]

/-- Claim C4 as amended: the bronze output key has exactly the documented
`<bronze_prefix>/ingestion_date=<date>/batch_id=<batch>/pokemon__<fp12>.parquet`
shape with `<fp12>` the first 12 hex characters of the SHA-256 digest of
the raw payload bytes; byte-identical payloads processed in the same batch
map to the same key; and within one batch two payloads map to the same key
exactly when their truncated fingerprints coincide — so distinct keys imply
distinct bytes, while distinct bytes collide exactly on труncated-fingerprint
collisions (which must exist, the fingerprint having only 48 bits). -/
theorem c4_amended_key_structure (env : BronzeEnv) (b1 b2 : List Nat) (n1 n2 : String) :
    (process_csv_bytes env b1 n1).key =
      env.bronzeDir ++ "/ingestion_date=" ++ env.ingestionDate ++ "/batch_id=" ++
        env.batchId ++ "/pokemon__" ++ fp12 b1 ++ ".parquet" ∧
    (b1 = b2 → (process_csv_bytes env b1 n1).key = (process_csv_bytes env b2 n2).key) ∧
    ((process_csv_bytes env b1 n1).key = (process_csv_bytes env b2 n2).key ↔
      fp12 b1 = fp12 b2) := by
  refine ⟨rfl, ?_, ?_, ?_⟩
  · rintro rfl
    rfl
  · intro h
    rw [process_key_eq, process_key_eq] at h
    have hd := congrArg String.data h
    simp only [String.data_append] at hd
    have h1 := List.append_cancel_right hd
    have h2 := List.append_cancel_left h1
    exact congrArg String.mk h2
  · intro h
    rw [process_key_eq, process_key_eq, h]

/-- Witness for the amended C4: identical bytes yield the identical key. -/
theorem c4_amended_key_structure_witness :
    (process_csv_bytes
      ⟨"mybucket-digo", "bronze/kaggle/pokemon", "r1", "2025_08_11_00", "2025-08-11", none⟩
      [0] "pokemon.csv").key =
    (process_csv_bytes
      ⟨"mybucket-digo", "bronze/kaggle/pokemon", "r1", "2025_08_11_00", "2025-08-11", none⟩
      [0] "pokemon2.csv").key :=
  (c4_amended_key_structure
    ⟨"mybucket-digo", "bronze/kaggle/pokemon", "r1", "2025_08_11_00", "2025-08-11", none⟩
    [0] [0] "pokemon.csv" "pokemon2.csv").2.1 rfl

/-- Every character surviving the disallowed-run substitution is allowed. -/
theorem allowedSub_allowed : ∀ (b : Bool) (l : List Char),
    ∀ c ∈ allowedSub b l, allowedChar c = true := by
  intro b l
  induction l generalizing b with
  | nil => intro c hc; simp [allowedSub] at hc
  | cons a rest ih =>
      intro c hc
      simp only [allowedSub] at hc
      split at hc
      · rcases List.mem_cons.mp hc with rfl | hc2
        · assumption
        · exact ih false c hc2
      · split at hc
        · exact ih true c hc
        · rcases List.mem_cons.mp hc with rfl | hc2
          · decide
          · exact ih true c hc2

/-- The collapse started in dash state never begins with a dash. -/
theorem collapseDash_head : ∀ l : List Char, (collapseDash true l).head? ≠ some '-' := by
  intro l
  induction l with
  | nil => simp [collapseDash]
  | cons a rest ih =>
      by_cases ha : a = '-'
      · subst ha
        simpa [collapseDash] using ih
      · simp [collapseDash, ha]

/-- The collapse output never has two adjacent dashes. -/
theorem collapseDash_chain : ∀ (b : Bool) (l : List Char), NoTwoDashes (collapseDash b l) := by
  intro b l
  induction l generalizing b with
  | nil => simp [collapseDash, NoTwoDashes]
  | cons a rest ih =>
      by_cases ha : a = '-'
      · subst ha
        cases b with
        | true =>
            have h : collapseDash true ('-' :: rest) = collapseDash true rest := by
              simp [collapseDash]
            rw [h]
            exact ih true
        | false =>
            have h : collapseDash false ('-' :: rest) = '-' :: collapseDash true rest := by
              simp [collapseDash]
            rw [h, NoTwoDashes, List.chain'_cons']
            constructor
            · intro y hy hcon
              exact collapseDash_head rest (by rw [Option.mem_def] at hy; rw [hy, hcon.2])
            · exact ih true
      · have h : collapseDash b (a :: rest) = a :: collapseDash false rest := by
          simp [collapseDash, ha]
        rw [h, NoTwoDashes, List.chain'_cons']
        exact ⟨fun y _ hcon => ha hcon.1, ih false⟩

/-- Characters of the collapse output come from the input or are dashes. -/
theorem collapseDash_mem : ∀ (b : Bool) (l : List Char) (c : Char),
    c ∈ collapseDash b l → c ∈ l ∨ c = '-' := by
  intro b l
  induction l generalizing b with
  | nil => intro c hc; simp [collapseDash] at hc
  | cons a rest ih =>
      intro c hc
      by_cases ha : a = '-'
      · subst ha
        cases b with
        | true =>
            rw [show collapseDash true ('-' :: rest) = collapseDash true rest from
              by simp [collapseDash]] at hc
            rcases ih true c hc with h | h
            · exact Or.inl (List.mem_cons_of_mem _ h)
            · exact Or.inr h
        | false =>
            rw [show collapseDash false ('-' :: rest) = '-' :: collapseDash true rest from
              by simp [collapseDash]] at hc
            rcases List.mem_cons.mp hc with rfl | hc2
            · exact Or.inr rfl
            · rcases ih true c hc2 with h | h
              · exact Or.inl (List.mem_cons_of_mem _ h)
              · exact Or.inr h
      · rw [show collapseDash b (a :: rest) = a :: collapseDash false rest from
          by simp [collapseDash, ha]] at hc
        rcases List.mem_cons.mp hc with rfl | hc2
        · exact Or.inl (List.mem_cons_self _ _)
        · rcases ih false c hc2 with h | h
          · exact Or.inl (List.mem_cons_of_mem _ h)
          · exact Or.inr h

/-- Characters of the trailing-dash strip come from the input. -/
theorem dtd_mem : ∀ (l : List Char) (c : Char), c ∈ dropTrailingDash l → c ∈ l := by
  intro l
  induction l with
  | nil => intro c hc; simp [dropTrailingDash] at hc
  | cons a rest ih =>
      intro c hc
      by_cases ha : a = '-'
      · subst ha
        simp only [dropTrailingDash, if_pos rfl] at hc
        cases hd : dropTrailingDash rest with
        | nil => rw [hd] at hc; simp at hc
        | cons x xs =>
            rw [hd] at hc
            rcases List.mem_cons.mp hc with rfl | hc2
            · exact List.mem_cons_self _ _
            · exact List.mem_cons_of_mem _ (ih c (hd ▸ hc2))
      · simp only [dropTrailingDash, if_neg ha] at hc
        rcases List.mem_cons.mp hc with rfl | hc2
        · exact List.mem_cons_self _ _
        · exact List.mem_cons_of_mem _ (ih c hc2)

/-- The trailing-dash strip preserves the head when it leaves anything. -/
theorem dtd_head : ∀ (l : List Char) (c : Char),
    (dropTrailingDash l).head? = some c → l.head? = some c := by
  intro l
  induction l with
  | nil => intro c hc; simp [dropTrailingDash] at hc
  | cons a rest ih =>
      intro c hc
      by_cases ha : a = '-'
      · subst ha
        simp only [dropTrailingDash, if_pos rfl] at hc
        cases hd : dropTrailingDash rest with
        | nil => rw [hd] at hc; simp at hc
        | cons x xs => rw [hd] at hc; simpa using hc
      · simp only [dropTrailingDash, if_neg ha] at hc
        simpa using hc

/-- The trailing-dash strip preserves dash non-adjacency. -/
theorem dtd_chain : ∀ l : List Char, NoTwoDashes l → NoTwoDashes (dropTrailingDash l) := by
  intro l
  induction l with
  | nil => intro h; simpa [dropTrailingDash] using h
  | cons a rest ih =>
      intro h
      have hrest : NoTwoDashes rest := (List.chain'_cons'.mp h).2
      have hhead := (List.chain'_cons'.mp h).1
      by_cases ha : a = '-'
      · subst ha
        cases hd : dropTrailingDash rest with
        | nil =>
            rw [show dropTrailingDash ('-' :: rest) = [] from by simp [dropTrailingDash, hd]]
            exact List.chain'_nil
        | cons x xs =>
            rw [show dropTrailingDash ('-' :: rest) = '-' :: x :: xs from by
              simp [dropTrailingDash, hd]]
            rw [NoTwoDashes, List.chain'_cons']
            constructor
            · intro y hy hcon
              rw [Option.mem_def] at hy
              have hy2 : y = x := by
                rw [show (x :: xs).head? = some x from rfl] at hy
                injection hy with h3
                exact h3.symm
              have hx : rest.head? = some x := dtd_head rest x (by rw [hd]; rfl)
              refine hhead x (by rw [Option.mem_def, hx]) ⟨rfl, ?_⟩
              rw [← hy2]
              exact hcon.2
            · have := ih hrest
              rw [hd] at this
              exact this
      · simp only [dropTrailingDash, if_neg ha]
        rw [NoTwoDashes, List.chain'_cons']
        constructor
        · intro y hy hcon
          exact ha hcon.1
        · exact ih hrest

/-- The trailing-dash strip never ends with a dash. -/
theorem dtd_last : ∀ l : List Char, (dropTrailingDash l).getLast? ≠ some '-' := by
  intro l
  induction l with
  | nil => simp [dropTrailingDash]
  | cons a rest ih =>
      by_cases ha : a = '-'
      · subst ha
        cases hd : dropTrailingDash rest with
        | nil =>
            rw [show dropTrailingDash ('-' :: rest) = [] from by simp [dropTrailingDash, hd]]
            simp
        | cons x xs =>
            rw [show dropTrailingDash ('-' :: rest) = '-' :: x :: xs from by
              simp [dropTrailingDash, hd]]
            rw [List.getLast?_cons_cons]
            rw [hd] at ih
            exact ih
      · simp only [dropTrailingDash, if_neg ha]
        cases hd : dropTrailingDash rest with
        | nil => simpa using ha
        | cons x xs =>
            rw [List.getLast?_cons_cons]
            rw [hd] at ih
            exact ih

/-- The head of a `dropWhile` result fails the predicate. -/
theorem dropWhile_head_not : ∀ (p : Char → Bool) (l : List Char) (c : Char),
    (l.dropWhile p).head? = some c → p c = false := by
  intro p l
  induction l with
  | nil => intro c hc; simp at hc
  | cons a rest ih =>
      intro c hc
      by_cases hp : p a = true
      · rw [List.dropWhile_cons_of_pos hp] at hc
        exact ih c hc
      · rw [List.dropWhile_cons_of_neg hp] at hc
        simp only [List.head?_cons] at hc
        injection hc with hc2
        subst hc2
        exact Bool.eq_false_iff.mpr hp

/-- An allowed character is a dash or a lowercase alphanumeric. -/
theorem allowed_cases {c : Char} (h : allowedChar c = true) :
    c = '-' ∨ azdigit c = true := by
  simp only [allowedChar, Bool.or_eq_true, beq_iff_eq] at h
  exact h

/-- A lowercase alphanumeric is not the dash. -/
theorem azdigit_ne_dash {c : Char} (h : azdigit c = true) : c ≠ '-' := by
  intro rfl2
  subst rfl2
  exact absurd h (by decide)

/-- A lowercase alphanumeric is not the underscore. -/
theorem azdigit_ne_under {c : Char} (h : azdigit c = true) : c ≠ '_' := by
  intro rfl2
  subst rfl2
  exact absurd h (by decide)

/-- On the slug alphabet, only a dash is renamed to the underscore. -/
theorem under_eq_means_dash {c : Char} (hall : allowedChar c = true)
    (hu : underOfDash c = '_') : c = '-' := by
  rcases allowed_cases hall with h | h
  · exact h
  · exfalso
    rw [underOfDash, if_neg (azdigit_ne_dash h)] at hu
    exact azdigit_ne_under h hu

/-- The last element of a list is a member. -/
theorem getLast?_memL : ∀ {l : List Char} {a : Char}, l.getLast? = some a → a ∈ l := by
  intro l
  induction l with
  | nil => intro a h; simp at h
  | cons x xs ih =>
      intro a h
      cases xs with
      | nil =>
          simp only [List.getLast?_singleton] at h
          injection h with h2
          exact h2 ▸ List.mem_cons_self _ _
      | cons y ys =>
          rw [List.getLast?_cons_cons] at h
          exact List.mem_cons_of_mem _ (ih h)

/-- The separator substitution with separator `"_"` is the pointwise
dash-to-underscore renaming. -/
theorem sepReplace_eq_map_under : ∀ l : List Char,
    sepReplace "_" l = l.map underOfDash := by
  intro l
  induction l with
  | nil => rfl
  | cons c rest ih =>
      simp only [sepReplace, List.flatMap_cons, List.map_cons] at *
      by_cases hc : c = '-'
      · subst hc
        simp [underOfDash, ih]
      · simp [underOfDash, hc, ih]

/-- The strip never leaves a leading dash. -/
theorem stripDash_head : ∀ l : List Char, (stripDash l).head? ≠ some '-' := by
  intro l hcon
  have h1 := dtd_head _ '-' hcon
  have h2 := dropWhile_head_not (fun c => c == '-') l '-' h1
  simp at h2

/-- The underscore renaming of a good dash-separated list has no adjacent
underscores. -/
theorem map_under_chain : ∀ t : List Char, (∀ c ∈ t, allowedChar c = true) →
    NoTwoDashes t → NoTwoUnders (t.map underOfDash) := by
  intro t
  induction t with
  | nil => intro _ _; exact List.chain'_nil
  | cons a rest ih =>
      intro hall hchain
      rw [List.map_cons, NoTwoUnders, List.chain'_cons']
      constructor
      · intro y hy hcon
        rw [Option.mem_def, List.head?_map] at hy
        cases hh : rest.head? with
        | none => rw [hh] at hy; simp at hy
        | some z =>
            rw [hh] at hy
            have hy2 : underOfDash z = y := by
              simp only [Option.map_some'] at hy
              injection hy
            have hz : z ∈ rest := List.mem_of_mem_head? (by rw [Option.mem_def, hh])
            have haa : a = '-' :=
              under_eq_means_dash (hall a (List.mem_cons_self _ _)) hcon.1
            have hzz : z = '-' :=
              under_eq_means_dash (hall z (List.mem_cons_of_mem _ hz))
                (by rw [hy2]; exact hcon.2)
            exact (List.chain'_cons'.mp hchain).1 z (by rw [Option.mem_def, hh]) ⟨haa, hzz⟩
      · exact ih (fun c hc => hall c (List.mem_cons_of_mem _ hc))
          (List.chain'_cons'.mp hchain).2

/-- The underscore renaming of a good dash-separated list has no leading
underscore. -/
theorem map_under_head {t : List Char} (hall : ∀ c ∈ t, allowedChar c = true)
    (hh : t.head? ≠ some '-') : (t.map underOfDash).head? ≠ some '_' := by
  intro hcon
  rw [List.head?_map] at hcon
  cases hz : t.head? with
  | none => rw [hz] at hcon; simp at hcon
  | some z =>
      rw [hz] at hcon
      simp only [Option.map_some'] at hcon
      injection hcon with hcon2
      have hzmem : z ∈ t := List.mem_of_mem_head? (by rw [Option.mem_def, hz])
      have : z = '-' := under_eq_means_dash (hall z hzmem) hcon2
      exact hh (this ▸ hz)

/-- Quote substitution is the identity on quote-free text. -/
theorem quoteSubDash_id : ∀ (b : Bool) (l : List Char),
    (∀ c ∈ l, c ≠ quoteChar) → quoteSubDash b l = l := by
  intro b l
  induction l generalizing b with
  | nil => intro _; rfl
  | cons a rest ih =>
      intro h
      have ha : a ≠ quoteChar := h a (List.mem_cons_self _ _)
      simp only [quoteSubDash, if_neg ha]
      exact congrArg (fun t => a :: t) (ih false (fun c hc => h c (List.mem_cons_of_mem _ hc)))

/-- Transliteration is the identity on ASCII text. -/
theorem unidecodeStr_id : ∀ l : List Char,
    (∀ c ∈ l, c.toNat < 128) → unidecodeStr l = l := by
  intro l
  induction l with
  | nil => intro _; rfl
  | cons a rest ih =>
      intro h
      have ha : a.toNat < 128 := h a (List.mem_cons_self _ _)
      simp only [unidecodeStr, List.flatMap_cons]
      rw [show unidecodeChar a = [a] from by rw [unidecodeChar, if_pos ha]]
      exact congrArg (fun t => a :: t)
        (ih (fun c hc => h c (List.mem_cons_of_mem _ hc)))

/-- A reference-substitution scan is the identity on ampersand-free text. -/
theorem refSub_no_amp (mf : List Char → Option (Nat × List Char)) :
    ∀ (fuel : Nat) (l : List Char), (∀ c ∈ l, c ≠ '&') → refSub mf fuel l = some l := by
  intro fuel
  induction fuel with
  | zero => intro l _; cases l <;> rfl
  | succ n ih =>
      intro l h
      cases l with
      | nil => rfl
      | cons a rest =>
          have ha : a ≠ '&' := h a (List.mem_cons_self _ _)
          simp only [refSub, if_neg ha]
          rw [ih rest (fun c hc => h c (List.mem_cons_of_mem _ hc))]
          rfl

/-- A reference-substitution pass is the identity on ampersand-free text. -/
theorem refPass_no_amp (mf : List Char → Option (Nat × List Char)) (l : List Char)
    (h : ∀ c ∈ l, c ≠ '&') : refPass mf l = l := by
  rw [refPass, refSub_no_amp mf _ l h]
  rfl

/-- NFKD is the identity on ASCII text. -/
theorem nfkdStr_id : ∀ l : List Char, (∀ c ∈ l, c.toNat < 128) → nfkdStr l = l := by
  intro l
  induction l with
  | nil => intro _; rfl
  | cons a rest ih =>
      intro h
      have ha : a.toNat < 128 := h a (List.mem_cons_self _ _)
      simp only [nfkdStr, List.flatMap_cons]
      rw [show nfkdChar a = [a] from by rw [nfkdChar, if_pos ha]]
      exact congrArg (fun t => a :: t)
        (ih (fun c hc => h c (List.mem_cons_of_mem _ hc)))

/-- The ascii-ignore encode is the identity on ASCII text. -/
theorem asciiIgnore_id (l : List Char) (h : ∀ c ∈ l, c.toNat < 128) :
    asciiIgnore l = l := by
  rw [asciiIgnore, List.filter_eq_self]
  intro a ha
  exact decide_eq_true (h a ha)

/-- Lowercasing fixes underscores and lowercase alphanumerics. -/
theorem toLower_fixed {c : Char} (h : c = '_' ∨ azdigit c = true) :
    Char.toLower c = c := by
  rcases h with rfl | h
  · decide
  · simp only [azdigit, Bool.or_eq_true, Bool.and_eq_true, decide_eq_true_eq] at h
    simp only [Char.toLower]
    rw [if_neg]
    omega

/-- Lowercasing is the identity on slug text. -/
theorem lowerStr_id (l : List Char) (h : ∀ c ∈ l, c = '_' ∨ azdigit c = true) :
    lowerStr l = l := by
  rw [lowerStr]
  have : List.map Char.toLower l = List.map id l :=
    List.map_congr_left (fun a ha => toLower_fixed (h a ha))
  rw [this, List.map_id]

/-- Quote deletion is the identity on slug text. -/
theorem quoteDel_id (l : List Char) (h : ∀ c ∈ l, c = '_' ∨ azdigit c = true) :
    quoteDel l = l := by
  rw [quoteDel, List.filter_eq_self]
  intro a ha
  rcases h a ha with rfl | h2
  · decide
  · simp only [bne_iff_ne, ne_eq]
    intro h3
    rw [h3] at h2
    exact absurd h2 (by decide)

/-- The in-number comma scan is the identity on comma-free text. -/
theorem numbersCleanupAux_id : ∀ (fuel : Nat) (l : List Char),
    (∀ c ∈ l, c ≠ ',') → numbersCleanupAux fuel l = l := by
  intro fuel
  induction fuel with
  | zero =>
      intro l _
      rcases l with _ | ⟨a, _ | ⟨b, _ | ⟨c, rest⟩⟩⟩ <;> rfl
  | succ n ih =>
      intro l h
      match l with
      | [] => rfl
      | [a] => rfl
      | [a, b] => rfl
      | a :: b :: c :: rest =>
          have hb : b ≠ ',' := h b (List.mem_cons_of_mem _ (List.mem_cons_self _ _))
          simp only [numbersCleanupAux]
          rw [if_neg (by simp [hb])]
          exact congrArg (fun t => a :: t)
            (ih (b :: c :: rest) (fun x hx => h x (List.mem_cons_of_mem _ hx)))

/-- The in-number comma removal is the identity on comma-free text. -/
theorem numbersCleanup_id (l : List Char) (h : ∀ c ∈ l, c ≠ ',') :
    numbersCleanup l = l := numbersCleanupAux_id l.length l h

/-- On slug text with no adjacent underscores and no leading underscore in
dash state, the disallowed-run substitution is exactly the pointwise
underscore-to-dash renaming. -/
theorem allowedSub_under : ∀ (l : List Char) (b : Bool),
    (∀ c ∈ l, c = '_' ∨ azdigit c = true) → NoTwoUnders l →
    (b = true → l.head? ≠ some '_') →
    allowedSub b l = l.map dashOfUnder := by
  intro l
  induction l with
  | nil => intro b _ _ _; rfl
  | cons a rest ih =>
      intro b hall hchain hhead
      rcases hall a (List.mem_cons_self _ _) with ha | ha
      · subst ha
        have hau : allowedChar '_' = false := by decide
        have hb : b = false := by
          cases b with
          | false => rfl
          | true => exact absurd rfl (hhead rfl)
        subst hb
        simp only [allowedSub, hau, Bool.false_eq_true, if_false, if_neg]
        simp only [List.map_cons]
        rw [show dashOfUnder '_' = '-' from rfl]
        refine congrArg (fun t => '-' :: t) (ih true
          (fun c hc => hall c (List.mem_cons_of_mem _ hc))
          (List.chain'_cons'.mp hchain).2 ?_)
        intro _ hcon
        cases hz : rest.head? with
        | none => rw [hz] at hcon; simp at hcon
        | some z =>
            rw [hz] at hcon
            injection hcon with h3
            exact (List.chain'_cons'.mp hchain).1 z (by rw [Option.mem_def, hz]) ⟨rfl, h3⟩
      · have haa : allowedChar a = true := by
          simp [allowedChar, ha]
        simp only [allowedSub, haa, if_true]
        simp only [List.map_cons]
        rw [show dashOfUnder a = a from by rw [dashOfUnder, if_neg (azdigit_ne_under ha)]]
        exact congrArg (fun t => a :: t) (ih false
          (fun c hc => hall c (List.mem_cons_of_mem _ hc))
          (List.chain'_cons'.mp hchain).2 (fun hcon => by cases hcon))

/-- With no adjacent dashes and no leading dash in dash state, the collapse
is the identity. -/
theorem collapseDash_id : ∀ (l : List Char) (b : Bool), NoTwoDashes l →
    (b = true → l.head? ≠ some '-') → collapseDash b l = l := by
  intro l
  induction l with
  | nil => intro b _ _; rfl
  | cons a rest ih =>
      intro b hchain hhead
      by_cases ha : a = '-'
      · subst ha
        have hb : b = false := by
          cases b with
          | false => rfl
          | true => exact absurd rfl (hhead rfl)
        subst hb
        rw [show collapseDash false ('-' :: rest) = '-' :: collapseDash true rest from
          by simp [collapseDash]]
        refine congrArg (fun t => '-' :: t) (ih true (List.chain'_cons'.mp hchain).2 ?_)
        intro _ hcon
        cases hz : rest.head? with
        | none => rw [hz] at hcon; simp at hcon
        | some z =>
            rw [hz] at hcon
            injection hcon with h3
            exact (List.chain'_cons'.mp hchain).1 z (by rw [Option.mem_def, hz]) ⟨rfl, h3⟩
      · rw [show collapseDash b (a :: rest) = a :: collapseDash false rest from
          by simp [collapseDash, ha]]
        exact congrArg (fun t => a :: t)
          (ih false (List.chain'_cons'.mp hchain).2 (fun hcon => by cases hcon))

/-- With no leading dash the leading strip is the identity. -/
theorem dropWhileDash_id (l : List Char) (h : l.head? ≠ some '-') :
    l.dropWhile (fun c => c == '-') = l := by
  cases l with
  | nil => rfl
  | cons a rest =>
      have ha : a ≠ '-' := fun hcon => h (by rw [hcon]; rfl)
      exact List.dropWhile_cons_of_neg (by simp [ha])

/-- With no trailing dash the trailing strip is the identity. -/
theorem dtd_id : ∀ l : List Char, l.getLast? ≠ some '-' → dropTrailingDash l = l := by
  intro l
  induction l with
  | nil => intro _; rfl
  | cons a rest ih =>
      intro h
      by_cases ha : a = '-'
      · subst ha
        cases rest with
        | nil => exact absurd rfl h
        | cons y ys =>
            rw [List.getLast?_cons_cons] at h
            have hr := ih h
            rw [show dropTrailingDash ('-' :: y :: ys) =
                match dropTrailingDash (y :: ys) with
                | [] => []
                | x :: xs => '-' :: x :: xs from by simp [dropTrailingDash]]
            rw [hr]
      · cases hrest : rest with
        | nil => simp [dropTrailingDash, ha]
        | cons y ys =>
            subst hrest
            rw [List.getLast?_cons_cons] at h
            rw [show dropTrailingDash (a :: y :: ys) = a :: dropTrailingDash (y :: ys) from
              by simp [dropTrailingDash, ha]]
            rw [ih h]

/-- With no leading and no trailing dash the strip is the identity. -/
theorem stripDash_id (l : List Char) (hh : l.head? ≠ some '-')
    (hl : l.getLast? ≠ some '-') : stripDash l = l := by
  rw [stripDash, dropWhileDash_id l hh, dtd_id l hl]

/-- Renaming dashes to underscores and back is the identity on the slug
alphabet. -/
theorem map_dash_under_inverse (l : List Char) (h : ∀ c ∈ l, allowedChar c = true) :
    (l.map underOfDash).map dashOfUnder = l := by
  rw [List.map_map]
  have : List.map (dashOfUnder ∘ underOfDash) l = List.map id l := by
    apply List.map_congr_left
    intro a ha
    rcases allowed_cases (h a ha) with rfl | h2
    · rfl
    · show dashOfUnder (underOfDash a) = a
      rw [underOfDash, if_neg (azdigit_ne_dash h2), dashOfUnder,
        if_neg (azdigit_ne_under h2)]
  rw [this, List.map_id]

/-- A slug character is ASCII and is neither a quote, an ampersand, nor a
comma. -/
theorem und_facts {c : Char} (h : c = '_' ∨ azdigit c = true) :
    c.toNat < 128 ∧ c ≠ quoteChar ∧ c ≠ '&' ∧ c ≠ ',' := by
  rcases h with rfl | h
  · exact ⟨by decide, by decide, by decide, by decide⟩
  · have h2 := h
    simp only [azdigit, Bool.or_eq_true, Bool.and_eq_true, decide_eq_true_eq] at h2
    refine ⟨by omega, ?_, ?_, ?_⟩
    · intro h3
      subst h3
      exact absurd h (by decide)
    · intro h3
      subst h3
      exact absurd h (by decide)
    · intro h3
      subst h3
      exact absurd h (by decide)

/-- Shape of every `slugify` output with separator `"_"`: the underscore
renaming of a list of allowed characters with no adjacent, no leading and
no trailing dash. -/
theorem slugify_under_shape (x : String) :
    ∃ t : List Char, slugify x "_" = String.mk (t.map underOfDash) ∧
      (∀ c ∈ t, allowedChar c = true) ∧ NoTwoDashes t ∧
      t.head? ≠ some '-' ∧ t.getLast? ≠ some '-' := by
  refine ⟨stripDash (collapseDash false (allowedSub false (numbersCleanup (quoteDel (lowerStr
    (asciiIgnore (nfkdStr (refPass hexMatch (refPass decMatch (refPass entityMatch
      (unidecodeStr (quoteSubDash false x.data)))))))))))), ?_, ?_, ?_, ?_, ?_⟩
  · unfold slugify
    dsimp only
    rw [if_neg (by decide), sepReplace_eq_map_under]
  · intro c hc
    have h1 := dtd_mem _ c hc
    have h2 : c ∈ collapseDash false (allowedSub false _) :=
      (List.dropWhile_suffix _).subset h1
    rcases collapseDash_mem _ _ c h2 with h3 | h3
    · exact allowedSub_allowed _ _ c h3
    · rw [h3]; decide
  · exact dtd_chain _ (List.Chain'.suffix (collapseDash_chain _ _) (List.dropWhile_suffix _))
  · exact stripDash_head _
  · exact dtd_last _

/-- Idempotence of `slugify` with separator `"_"`. -/
theorem slugify_sep_idem (x : String) :
    slugify (slugify x "_") "_" = slugify x "_" := by
  obtain ⟨t, hx, hall, hchain, hhead, hlast⟩ := slugify_under_shape x
  rw [hx]
  set s := t.map underOfDash with hs
  have hsall : ∀ c ∈ s, c = '_' ∨ azdigit c = true := by
    intro c hc
    rw [hs] at hc
    obtain ⟨d, hd, rfl⟩ := List.mem_map.mp hc
    rcases allowed_cases (hall d hd) with rfl | h2
    · exact Or.inl rfl
    · rw [underOfDash, if_neg (azdigit_ne_dash h2)]
      exact Or.inr h2
  have hascii : ∀ c ∈ s, c.toNat < 128 := fun c hc => (und_facts (hsall c hc)).1
  have hq : ∀ c ∈ s, c ≠ quoteChar := fun c hc => (und_facts (hsall c hc)).2.1
  have hamp : ∀ c ∈ s, c ≠ '&' := fun c hc => (und_facts (hsall c hc)).2.2.1
  have hcomma : ∀ c ∈ s, c ≠ ',' := fun c hc => (und_facts (hsall c hc)).2.2.2
  have hschain : NoTwoUnders s := hs ▸ map_under_chain t hall hchain
  unfold slugify
  dsimp only
  rw [if_neg (by decide)]
  rw [quoteSubDash_id false s hq]
  rw [unidecodeStr_id s hascii]
  rw [refPass_no_amp entityMatch s hamp]
  rw [refPass_no_amp decMatch s hamp]
  rw [refPass_no_amp hexMatch s hamp]
  rw [nfkdStr_id s hascii]
  rw [asciiIgnore_id s hascii]
  rw [lowerStr_id s hsall]
  rw [quoteDel_id s hsall]
  rw [numbersCleanup_id s hcomma]
  rw [allowedSub_under s false hsall hschain (fun hcon => by cases hcon)]
  rw [hs, map_dash_under_inverse t hall]
  rw [collapseDash_id t false hchain (fun hcon => by cases hcon)]
  rw [stripDash_id t hhead hlast]
  rw [sepReplace_eq_map_under]

/-- Claim C7: column-name normalization is idempotent — re-normalizing the
already-normalized column list returns it unchanged — and deterministic:
the slug of a name is a pure function of the name. -/
theorem c7_to_snake_cols_idempotent :
    (∀ cols : List String, to_snake_cols (to_snake_cols cols) = to_snake_cols cols) ∧
    (∀ c1 c2 : String, c1 = c2 → slugify c1 "_" = slugify c2 "_") := by
  constructor
  · intro cols
    rw [to_snake_cols, to_snake_cols, List.map_map]
    apply List.map_congr_left
    intro a _
    exact slugify_sep_idem a
  · intro c1 c2 h
    rw [h]

/-- Witness for C7 at concrete column names. -/
theorem c7_to_snake_cols_idempotent_witness :
    to_snake_cols (to_snake_cols ["Pokédex #", "Sp. Atk"]) =
      to_snake_cols ["Pokédex #", "Sp. Atk"] ∧
    slugify "Type 1" "_" = slugify "Type 1" "_" :=
  ⟨c7_to_snake_cols_idempotent.1 ["Pokédex #", "Sp. Atk"],
   c7_to_snake_cols_idempotent.2 "Type 1" "Type 1" rfl⟩
